import Mathlib

/-!
Verification of the HTML abstract-extraction engine (`abstract_extractor.py`).

The engine is embedded shallowly:
* Python `re` usage is embedded by a small backtracking matcher over the
  exact fragment of regex syntax that the fixed pattern library uses
  (literals, single-character classes, greedy and lazy quantifiers over
  single-character classes, alternation of simple branches, one lookahead,
  one capture group); `re.findall`, `re.search` and `re.sub`(delete) are
  scanners built on top of it, with explicit fuel so that everything is
  structurally recursive and kernel-executable.
* `json.loads` is embedded by a recursive-descent JSON parser over a
  `PyJson` value type (numbers are kept as lexemes: no field of the code
  under verification inspects numeric values).
* Python exceptions are embedded with `Except`: `_clean_html` applied to a
  non-string JSON value raises `TypeError` in the source (no handler), so
  the public entry points return `Except PyErr _`.
Unicode-only behaviours (non-ASCII case folding, non-ASCII whitespace and
digits) are modelled by their ASCII restrictions.
-/

/-- Configuration of `AbstractExtractor.__init__`: `min_length`, `max_length`,
`verbose`.  `verbose` only gates `print` calls in the source. -/
structure Config where
  min_length : Nat
  max_length : Nat
  verbose : Bool
deriving DecidableEq

/-- The only uncaught Python exception the engine can raise:
`TypeError` from `re.sub(pattern, '', text)` when `text` is not a string. -/
inductive PyErr where
  | typeError
deriving DecidableEq

/-- ASCII model of Python `\s` / `str.split()` / `str.strip()` whitespace:
space, tab, newline, carriage return, vertical tab, form feed. -/
def pySpace (c : Char) : Bool :=
  c = ' ' || c = '\t' || c = '\n' || c = '\r' || c = Char.ofNat 11 || c = Char.ofNat 12

/-- Character comparison, case-insensitive when `ci` is true: equal, or an
ASCII letter pair differing exactly by the case bit (the ASCII model of
`re.IGNORECASE` folding). -/
def ciEq (ci : Bool) (a b : Char) : Bool :=
  if ci then
    a = b || (a.isUpper && b.isLower && b.toNat = a.toNat + 32)
      || (b.isUpper && a.isLower && a.toNat = b.toNat + 32)
  else a = b

/-- ASCII model of `\w`: letters, digits, underscore. -/
def wordChar (c : Char) : Bool := c.isAlpha || c.isDigit || c = '_'

/-- `[^>]` character class. -/
def nonGt (c : Char) : Bool := c ≠ '>'

/-- `[^"]` character class. -/
def nonQuote (c : Char) : Bool := c ≠ '"'

/-- `.` under `re.DOTALL`. -/
def anyDot (_ : Char) : Bool := true

/-- Simple regex pieces: the constructs appearing in the fixed pattern
library, each quantifier applying to a single-character class (as in the
source patterns). -/
inductive SP where
  | lit (s : List Char)
  | cls (f : Char → Bool)
  | star (f : Char → Bool)
  | starL (f : Char → Bool)
  | plus (f : Char → Bool)
  | opt (f : Char → Bool)
  | litAlt (ss : List (List Char))
  | grpStar (f : Char → Bool)
  | grpStarL (f : Char → Bool)

/-- A pattern piece: a simple piece, an alternation of simple branches
(used for `(noscript|iframe|embed)...</\1>`, expanded per branch), or a
lookahead `(?=b1|b2|...|$)`. -/
inductive Pc where
  | s (p : SP)
  | alts (bs : List (List SP))
  | look (bs : List (List SP)) (allowEnd : Bool)

/-- Matcher state: remaining input suffix, and the capture-group content
(if a group has matched). -/
abbrev MSt := List Char × Option (List Char)

/-- Match a literal (under `ci`), returning the remaining suffix. -/
def litMatch (ci : Bool) : List Char → List Char → Option (List Char)
  | [], l => some l
  | _ :: _, [] => none
  | c :: cs, x :: xs => if ciEq ci c x then litMatch ci cs xs else none

/-- Suffixes reachable by a greedy star over class `f`, longest first
(backtracking priority order). -/
def starEnds (f : Char → Bool) : List Char → List (List Char)
  | [] => [[]]
  | c :: cs => (if f c then starEnds f cs else []) ++ [c :: cs]

/-- Suffixes reachable by a lazy star over class `f`, shortest first. -/
def starLEnds (f : Char → Bool) : List Char → List (List Char)
  | [] => [[]]
  | c :: cs => (c :: cs) :: (if f c then starLEnds f cs else [])

/-- Match one simple piece, returning successor states in backtracking
priority order. -/
def matchSP (ci : Bool) : SP → MSt → List MSt
  | .lit s, (l, g) =>
    match litMatch ci s l with
    | some r => [(r, g)]
    | none => []
  | .cls f, ([], _) => []
  | .cls f, (c :: cs, g) => if f c then [(cs, g)] else []
  | .star f, (l, g) => (starEnds f l).map (fun r => (r, g))
  | .starL f, (l, g) => (starLEnds f l).map (fun r => (r, g))
  | .plus f, ([], _) => []
  | .plus f, (c :: cs, g) => if f c then (starEnds f cs).map (fun r => (r, g)) else []
  | .opt f, ([], g) => [([], g)]
  | .opt f, (c :: cs, g) => if f c then [(cs, g), (c :: cs, g)] else [(c :: cs, g)]
  | .litAlt ss, (l, g) =>
    ss.flatMap (fun s =>
      match litMatch ci s l with
      | some r => [(r, g)]
      | none => [])
  | .grpStar f, (l, g) =>
    (starEnds f l).map (fun r => (r, some (l.take (l.length - r.length))))
  | .grpStarL f, (l, g) =>
    (starLEnds f l).map (fun r => (r, some (l.take (l.length - r.length))))

/-- Match a sequence of simple pieces. -/
def matchSPs (ci : Bool) (ps : List SP) (st : MSt) : List MSt :=
  ps.foldl (fun sts p => sts.flatMap (matchSP ci p)) [st]

/-- Match one pattern piece.  A lookahead is zero-width; its `$`
alternative succeeds at the end of the input or just before a final
newline (Python `$` without `re.MULTILINE`). -/
def matchPc (ci : Bool) : Pc → MSt → List MSt
  | .s p, st => matchSP ci p st
  | .alts bs, st => bs.flatMap (fun b => matchSPs ci b st)
  | .look bs allowEnd, (l, g) =>
    if bs.any (fun b => !(matchSPs ci b (l, g)).isEmpty)
        || (allowEnd && (decide (l = []) || decide (l = ['\n']))) then
      [(l, g)]
    else []

/-- Match a whole pattern from a state. -/
def matchPat (ci : Bool) (pat : List Pc) (st : MSt) : List MSt :=
  pat.foldl (fun sts p => sts.flatMap (matchPc ci p)) [st]

/-- First (highest-priority) match of `pat` at the head of `l`:
the number of characters consumed and the capture-group content. -/
def matchAt (ci : Bool) (pat : List Pc) (l : List Char) : Option (Nat × Option (List Char)) :=
  match (matchPat ci pat (l, none)).head? with
  | some (rem, g) => some (l.length - rem.length, g)
  | none => none

/-- `re.findall` scan: non-overlapping matches, left to right, taking the
first match at each position; an empty match advances one character
(Python 3.7+ behaviour; unreachable for this pattern library).  Returns
(full match, capture group) pairs.  `fuel` is at least `length + 1`, so it
never runs out (each step consumes one fuel and at least one character). -/
def findAllGo (ci : Bool) (pat : List Pc) : Nat → List Char → List (List Char × Option (List Char))
  | 0, _ => []
  | _ + 1, [] =>
    match matchAt ci pat [] with
    | some (_, g) => [([], g)]
    | none => []
  | fuel + 1, c :: cs =>
    match matchAt ci pat (c :: cs) with
    | some (k, g) =>
      if k = 0 then ([], g) :: findAllGo ci pat fuel cs
      else ((c :: cs).take k, g) :: findAllGo ci pat fuel ((c :: cs).drop k)
    | none => findAllGo ci pat fuel cs

/-- `re.findall pat s` (full-match slices and group contents). -/
def findAll (ci : Bool) (pat : List Pc) (s : String) : List (List Char × Option (List Char)) :=
  findAllGo ci pat (s.data.length + 1) s.data

/-- `re.search` scan: first match position, returning the capture-group
content of the first match, if any. -/
def searchGo (ci : Bool) (pat : List Pc) : Nat → List Char → Option (Option (List Char))
  | 0, _ => none
  | _ + 1, [] =>
    match matchAt ci pat [] with
    | some (_, g) => some g
    | none => none
  | fuel + 1, c :: cs =>
    match matchAt ci pat (c :: cs) with
    | some (_, g) => some g
    | none => searchGo ci pat fuel cs

/-- Group 1 of `re.search pat s`, as a string. -/
def searchGroup (ci : Bool) (pat : List Pc) (s : String) : Option String :=
  match searchGo ci pat (s.data.length + 1) s.data with
  | some (some g) => some (String.mk g)
  | _ => none

/-- `re.sub(pat, '', ·)` scan: delete every non-overlapping match, left to
right.  When fuel runs out (it cannot: callers pass `length + 1`) the rest
of the input is returned unchanged, which keeps every identity lemma
fuel-uniform. -/
def subDelGo (ci : Bool) (pat : List Pc) : Nat → List Char → List Char
  | 0, l => l
  | _ + 1, [] => []
  | fuel + 1, c :: cs =>
    match matchAt ci pat (c :: cs) with
    | some (k, _) =>
      if k = 0 then c :: subDelGo ci pat fuel cs
      else subDelGo ci pat fuel ((c :: cs).drop k)
    | none => c :: subDelGo ci pat fuel cs

/-- `re.sub(pat, '', l)` on character lists. -/
def subDel (ci : Bool) (pat : List Pc) (l : List Char) : List Char :=
  subDelGo ci pat (l.length + 1) l

/-- `str.replace(pat, rep)`: replace all non-overlapping occurrences, left
to right (`pat` is nonempty for every table entry). -/
def pyReplaceGo (pat rep : List Char) : Nat → List Char → List Char
  | 0, l => l
  | _ + 1, [] => []
  | fuel + 1, c :: cs =>
    if pat.isPrefixOf (c :: cs) then rep ++ pyReplaceGo pat rep fuel ((c :: cs).drop pat.length)
    else c :: pyReplaceGo pat rep fuel cs

/-- `str.replace` on character lists. -/
def pyReplace (pat rep l : List Char) : List Char :=
  pyReplaceGo pat rep (l.length + 1) l

/-! ### The fixed pattern library of `_extract_patterns` -/

/-- Pieces for `attr="[^"]*marker[^"]*"`. -/
def attrContains (attr marker : String) : List Pc :=
  [.s (.lit (attr ++ "=\"").data), .s (.star nonQuote), .s (.lit marker.data),
   .s (.star nonQuote), .s (.lit "\"".data)]

/-- Pieces for a literal `attr="value"`. -/
def attrExact (attr val : String) : List Pc :=
  [.s (.lit (attr ++ "=\"" ++ val ++ "\"").data)]

/-- `<tag[^>]*` MID `[^>]*>.*?</tag>` — the shared container shape of the
structural patterns. -/
def contPat (tag : String) (mid : List Pc) : List Pc :=
  [.s (.lit ("<" ++ tag).data), .s (.star nonGt)] ++ mid ++
    [.s (.star nonGt), .s (.lit ">".data), .s (.starL anyDot),
     .s (.lit ("</" ++ tag ++ ">").data)]

/-- `<div[^>]*class="[^"]*springer[^"]*abstract[^"]*"[^>]*>.*?</div>`. -/
def springerPat : List Pc :=
  contPat "div"
    [.s (.lit "class=\"".data), .s (.star nonQuote), .s (.lit "springer".data),
     .s (.star nonQuote), .s (.lit "abstract".data), .s (.star nonQuote),
     .s (.lit "\"".data)]

/-- `<section[^>]*id="Abs\d+"[^>]*>.*?</section>`. -/
def absNumPat : List Pc :=
  contPat "section" [.s (.lit "id=\"Abs".data), .s (.plus Char.isDigit), .s (.lit "\"".data)]

/-- `<section[^>]*data-testid="abstract[^"]*"[^>]*>.*?</section>`. -/
def testidPat : List Pc :=
  contPat "section"
    [.s (.lit "data-testid=\"abstract".data), .s (.star nonQuote), .s (.lit "\"".data)]

/-- `<h\d[^>]*>Abstract</h\d>.*?(?=<h\d|<section|<div class="[^"]*(?:article|paper|publication)[^"]*"|<footer|<nav|$)`. -/
def headingAbstractPat : List Pc :=
  [.s (.lit "<h".data), .s (.cls Char.isDigit), .s (.star nonGt),
   .s (.lit ">Abstract</h".data), .s (.cls Char.isDigit), .s (.lit ">".data),
   .s (.starL anyDot),
   .look
     [[.lit "<h".data, .cls Char.isDigit],
      [.lit "<section".data],
      [.lit "<div class=\"".data, .star nonQuote,
       .litAlt ["article".data, "paper".data, "publication".data],
       .star nonQuote, .lit "\"".data],
      [.lit "<footer".data],
      [.lit "<nav".data]] true]

/-- `<h\d[^>]*>Summary</h\d>.*?(?=<h\d|<section|<div|<footer|$)`. -/
def headingSummaryPat : List Pc :=
  [.s (.lit "<h".data), .s (.cls Char.isDigit), .s (.star nonGt),
   .s (.lit ">Summary</h".data), .s (.cls Char.isDigit), .s (.lit ">".data),
   .s (.starL anyDot),
   .look
     [[.lit "<h".data, .cls Char.isDigit],
      [.lit "<section".data],
      [.lit "<div".data],
      [.lit "<footer".data]] true]

/-- The 21 structural patterns of `_extract_patterns`, in source order. -/
def patternLib : List (List Pc) :=
  [contPat "div" (attrContains "class" "abstract"),
   contPat "section" (attrContains "class" "abstract"),
   contPat "div" (attrExact "id" "Abs1"),
   absNumPat,
   springerPat,
   contPat "div" (attrContains "class" "abstract"),
   testidPat,
   contPat "div" (attrContains "id" "abstract"),
   contPat "section" (attrContains "class" "abstractSection"),
   contPat "div" (attrContains "class" "paper-abstract"),
   contPat "blockquote" (attrContains "class" "abstract"),
   contPat "span" (attrContains "class" "abstract"),
   contPat "div" (attrExact "role" "doc-abstract"),
   contPat "article" (attrExact "id" "abstract"),
   contPat "div" (attrExact "id" "abstract"),
   contPat "section" (attrExact "id" "abstract"),
   headingAbstractPat,
   headingSummaryPat,
   contPat "div" (attrContains "class" "note_content_value"),
   contPat "div" (attrContains "class" "abstract-text"),
   contPat "div" (attrExact "data-test-id" "paper-abstract")]

/-- `_extract_patterns`: all `re.findall` matches of every pattern
(`re.IGNORECASE | re.DOTALL`), in pattern order (`re.error` is impossible
for these fixed, valid patterns, so the per-pattern handler is dead). -/
def extract_patterns (html : String) : List String :=
  patternLib.foldl (fun acc p => acc ++ (findAll true p html).map (fun m => String.mk m.1)) []

/-! ### `_extract_meta_tags` -/

/-- `<meta[^>]*name="description"[^>]*content="([^"]*)"`. -/
def metaDescPat : List Pc :=
  [.s (.lit "<meta".data), .s (.star nonGt), .s (.lit "name=\"description\"".data),
   .s (.star nonGt), .s (.lit "content=\"".data), .s (.grpStar nonQuote), .s (.lit "\"".data)]

/-- `<meta[^>]*property="og:description"[^>]*content="([^"]*)"`. -/
def ogDescPat : List Pc :=
  [.s (.lit "<meta".data), .s (.star nonGt), .s (.lit "property=\"og:description\"".data),
   .s (.star nonGt), .s (.lit "content=\"".data), .s (.grpStar nonQuote), .s (.lit "\"".data)]

/-- `<meta[^>]*name="twitter:description"[^>]*content="([^"]*)"`. -/
def twitterDescPat : List Pc :=
  [.s (.lit "<meta".data), .s (.star nonGt), .s (.lit "name=\"twitter:description\"".data),
   .s (.star nonGt), .s (.lit "content=\"".data), .s (.grpStar nonQuote), .s (.lit "\"".data)]

/-- Group 1 of a search, as a zero-or-one-element list. -/
def groupToList (o : Option String) : List String :=
  match o with
  | some s => [s]
  | none => []

/-- `_extract_meta_tags`: the three `re.search` lookups (IGNORECASE), in
source order, each contributing its group 1 when it matches. -/
def extract_meta_tags (html : String) : List String :=
  groupToList (searchGroup true metaDescPat html) ++
    groupToList (searchGroup true ogDescPat html) ++
    groupToList (searchGroup true twitterDescPat html)

/-! ### `_clean_html` -/

/-- `<script[^>]*>.*?</script>` (DOTALL, IGNORECASE). -/
def scriptPat : List Pc :=
  [.s (.lit "<script".data), .s (.star nonGt), .s (.lit ">".data),
   .s (.starL anyDot), .s (.lit "</script>".data)]

/-- `<style[^>]*>.*?</style>` (DOTALL, IGNORECASE). -/
def stylePat : List Pc :=
  [.s (.lit "<style".data), .s (.star nonGt), .s (.lit ">".data),
   .s (.starL anyDot), .s (.lit "</style>".data)]

/-- One branch of `<(noscript|iframe|embed)[^>]*>.*?</\1>` with the
back-reference expanded to its bound tag. -/
def bloatBranch (tag : String) : List SP :=
  [.lit ("<" ++ tag).data, .star nonGt, .lit ">".data, .starL anyDot,
   .lit ("</" ++ tag ++ ">").data]

/-- `<(noscript|iframe|embed)[^>]*>.*?</\1>` (DOTALL, IGNORECASE): the
back-reference makes the closing tag equal to the alternative that
matched, so the pattern is the priority-ordered alternation of its three
expansions. -/
def bloatPat : List Pc :=
  [.alts [bloatBranch "noscript", bloatBranch "iframe", bloatBranch "embed"]]

/-- `<!--.*?-->` (DOTALL). -/
def commentPat : List Pc :=
  [.s (.lit "<!--".data), .s (.starL anyDot), .s (.lit "-->".data)]

/-- `<[^>]+>`. -/
def tagPat : List Pc :=
  [.s (.lit "<".data), .s (.plus nonGt), .s (.lit ">".data)]

/-- `&#?\w+;`. -/
def entityRefPat : List Pc :=
  [.s (.lit "&".data), .s (.opt (fun c => c = '#')), .s (.plus wordChar), .s (.lit ";".data)]

/-- The ASCII apostrophe, kept out of string literals. -/
def aposStr : String := String.mk [Char.ofNat 39]

/-- The `html_entities` table, in source (dict insertion) order. -/
def htmlEntities : List (String × String) :=
  [("&nbsp;", " "), ("&amp;", "&"), ("&lt;", "<"), ("&gt;", ">"),
   ("&quot;", "\""), ("&#39;", aposStr), ("&apos;", aposStr), ("&mdash;", "—"),
   ("&ndash;", "–"), ("&ldquo;", "\""), ("&rdquo;", "\""), ("&lsquo;", aposStr),
   ("&rsquo;", aposStr), ("&hellip;", "…"), ("&deg;", "°"), ("&copy;", "©")]

/-- Case-insensitive prefix test. -/
def ciIsPrefix (p l : List Char) : Bool :=
  match litMatch true p l with
  | some _ => true
  | none => false

/-- `re.sub(r'\s+', ' ', ·)`: collapse each maximal whitespace run to a
single space (`b` records that the current run has already emitted its
space). -/
def collapseWsGo : Bool → List Char → List Char
  | _, [] => []
  | b, c :: cs =>
    if pySpace c then (if b then collapseWsGo true cs else ' ' :: collapseWsGo true cs)
    else c :: collapseWsGo false cs

/-- Whitespace collapse, starting outside a run. -/
def collapseWs (l : List Char) : List Char := collapseWsGo false l

/-- `str.strip()` on character lists. -/
def stripList (l : List Char) : List Char :=
  ((l.dropWhile pySpace).reverse.dropWhile pySpace).reverse

/-- A match of `\s*Show More.*$` (IGNORECASE, no DOTALL/MULTILINE) starting
exactly here: skip the whitespace run, require `Show More`
case-insensitively, and let `.*$` reach the end of the string (`some []`)
or the position just before a final newline (`some ['\n']`, the newline
kept).  `none` when no match starts here. -/
def showMoreAt (l : List Char) : Option (List Char) :=
  let r := l.dropWhile pySpace
  if ciIsPrefix "Show More".data r then
    let rest := r.drop 9
    if !rest.contains '\n' then some []
    else if rest.getLast? = some '\n' && !rest.dropLast.contains '\n' then some ['\n']
    else none
  else none

/-- `re.sub(r'\s*Show More.*$', '', ·, flags=re.IGNORECASE)`: delete from
the leftmost match to the end (a second match cannot follow the first). -/
def showMoreGo : List Char → List Char
  | [] => []
  | c :: cs =>
    match showMoreAt (c :: cs) with
    | some tail => tail
    | none => c :: showMoreGo cs

/-- A match of `\s*\.\.\.$` starting exactly here: the whitespace run must
be followed by exactly `...` at the end of the string, or by `...`
directly before a final newline. -/
def ellipsisAt (l : List Char) : Option (List Char) :=
  let r := l.dropWhile pySpace
  if r = ['.', '.', '.'] then some []
  else if r = ['.', '.', '.', '\n'] then some ['\n']
  else none

/-- `re.sub(r'\s*\.\.\.$', '', ·)`: delete the leftmost (hence only)
match. -/
def ellipsisGo : List Char → List Char
  | [] => []
  | c :: cs =>
    match ellipsisAt (c :: cs) with
    | some tail => tail
    | none => c :: ellipsisGo cs

/-- `_clean_html`, step by step in source order: script blocks, style
blocks, noscript/iframe/embed blocks, comments, remaining tags, the
fixed entity table, remaining `&#?\w+;` references, whitespace collapse
and strip, the trailing `Show More` suffix, the trailing ellipsis. -/
def cleanList (l : List Char) : List Char :=
  let t1 := subDel true scriptPat l
  let t2 := subDel true stylePat t1
  let t3 := subDel true bloatPat t2
  let t4 := subDel false commentPat t3
  let t5 := subDel false tagPat t4
  let t6 := htmlEntities.foldl (fun t pr => pyReplace pr.1.data pr.2.data t) t5
  let t7 := subDel false entityRefPat t6
  let t8 := stripList (collapseWs t7)
  let t9 := showMoreGo t8
  ellipsisGo t9

/-- `_clean_html` on strings. -/
def clean_html (s : String) : String := String.mk (cleanList s.data)

/-! ### Quality filter -/

/-- `str.split()` with no separator: maximal non-whitespace runs (the
accumulator holds the current word, reversed). -/
def splitWsGo : Option (List Char) → List Char → List (List Char)
  | none, [] => []
  | some w, [] => [w.reverse]
  | none, c :: cs => if pySpace c then splitWsGo none cs else splitWsGo (some [c]) cs
  | some w, c :: cs =>
    if pySpace c then w.reverse :: splitWsGo none cs else splitWsGo (some (c :: w)) cs

/-- `str.split()` on character lists. -/
def pySplit (l : List Char) : List (List Char) := splitWsGo none l

/-- `len(s.split())`. -/
def wordCount (l : List Char) : Nat := (pySplit l).length

/-- `[.!?]` character class. -/
def sentPunct (c : Char) : Bool := c = '.' || c = '!' || c = '?'

/-- `re.split(r'[.!?]+', ·)` scan; the flag records being inside a
punctuation run (whose segment has already been emitted). -/
def sentGo : Bool → List Char → List Char → List (List Char)
  | _, acc, [] => [acc.reverse]
  | false, acc, c :: cs =>
    if sentPunct c then acc.reverse :: sentGo true [] cs else sentGo false (c :: acc) cs
  | true, acc, c :: cs =>
    if sentPunct c then sentGo true acc cs else sentGo false [c] cs

/-- `re.split(r'[.!?]+', ·)`: the segments between maximal `[.!?]` runs,
empty boundary segments included. -/
def sentSplit (l : List Char) : List (List Char) := sentGo false [] l

/-- Number of uppercase characters (`c.isupper()`, ASCII model). -/
def upperCount (l : List Char) : Nat := (l.filter Char.isUpper).length

/-- Number of sentence segments with more than three words. -/
def multiWordSentences (l : List Char) : Nat :=
  ((sentSplit l).filter (fun s => 3 < wordCount s)).length

/-- The four quality checks of `_filter_quality_abstracts` on a cleaned
text: length bounds, word-count bounds, at least two multi-word sentence
segments, uppercase ratio at most 0.4 (the float comparison
`upper/len > 0.4` is exact cross-multiplication `5*upper > 2*len` for
every realizable length, and agrees with the `if cleaned else 0` guard at
length 0). -/
def qualityOk (cfg : Config) (cleaned : List Char) : Bool :=
  !(decide (cleaned.length < cfg.min_length) || decide (cleaned.length > cfg.max_length)) &&
    !(decide (wordCount cleaned < 10) || decide (wordCount cleaned > 1000)) &&
    !(decide (multiWordSentences cleaned < 2)) &&
    !(decide (2 * cleaned.length < 5 * upperCount cleaned))

/-- Python values flowing through `all_abstracts`: strings from the
pattern/meta extractors and arbitrary JSON values from `_extract_json_ld`. -/
inductive PyJson where
  | null
  | bool (b : Bool)
  | num (lit : String)
  | str (s : String)
  | arr (xs : List PyJson)
  | obj (kvs : List (String × PyJson))

/-- The loop of `_filter_quality_abstracts`, parameterised by the quality
predicate: clean each candidate in order and keep its cleaned form when
the check passes.  `_clean_html` applied to a non-string raises
`TypeError` at its first `re.sub`, aborting the whole call. -/
def filterQualityLoop (q : List Char → Bool) : List PyJson → Except PyErr (List String)
  | [] => .ok []
  | .str s :: rest =>
    match filterQualityLoop q rest with
    | .error e => .error e
    | .ok tl =>
      let cleaned := (clean_html s).data
      if q cleaned then .ok (String.mk cleaned :: tl) else .ok tl
  | _ :: _ => .error .typeError

/-- `_filter_quality_abstracts`: the loop with the four checks of the
configured bounds. -/
def _filter_quality_abstracts (cfg : Config) (l : List PyJson) : Except PyErr (List String) :=
  filterQualityLoop (qualityOk cfg) l

/-! ### Deduplication and selection -/

/-- The loop of `_remove_duplicates`: `uniq` is `unique_abstracts` so far,
`seen` is `seen_lengths`. -/
def removeDupGo : List String → List String → List Nat → List String
  | [], uniq, _ => uniq
  | a :: rest, uniq, seen =>
    if seen.any (fun sl => Nat.dist a.length sl < 50) then removeDupGo rest uniq seen
    else if a ∈ uniq then removeDupGo rest uniq seen
    else removeDupGo rest (uniq ++ [a]) (a.length :: seen)

/-- `_remove_duplicates`. -/
def _remove_duplicates (l : List String) : List String := removeDupGo l [] []

/-- Stable insertion into a length-descending list: an element inserted
later goes after equals, as Python `list.sort` (stable) places it. -/
def insertDesc (x : String) : List String → List String
  | [] => [x]
  | y :: ys => if x.length ≤ y.length then y :: insertDesc x ys else x :: y :: ys

/-- `unique_abstracts.sort(key=len, reverse=True)`: stable
length-descending sort. -/
def sortDescLen (l : List String) : List String :=
  l.foldl (fun acc x => insertDesc x acc) []

/-- `max(a :: rest, key=len)`: Python keeps the current maximum and
replaces it only on a strictly greater key, so the earliest maximum wins. -/
def pyMaxLen (a : String) (rest : List String) : String :=
  rest.foldl (fun m x => if m.length < x.length then x else m) a

/-! ### `json.loads` model -/

/-- JSON whitespace accepted between tokens by `json.loads`. -/
def jsonWs (c : Char) : Bool := c = ' ' || c = '\t' || c = '\n' || c = '\r'

/-- Value of one hex digit. -/
def hexVal (c : Char) : Option Nat :=
  if '0' ≤ c ∧ c ≤ '9' then some (c.toNat - 48)
  else if 'a' ≤ c ∧ c ≤ 'f' then some (c.toNat - 87)
  else if 'A' ≤ c ∧ c ≤ 'F' then some (c.toNat - 55)
  else none

/-- Four hex digits. -/
def parseHex4 : List Char → Option (Nat × List Char)
  | a :: b :: c :: d :: rest => do
    let va ← hexVal a
    let vb ← hexVal b
    let vc ← hexVal c
    let vd ← hexVal d
    some (((va * 16 + vb) * 16 + vc) * 16 + vd, rest)
  | _ => none

/-- JSON string body after the opening quote: escapes as in `json.loads`
(strict mode rejects raw control characters; surrogate pairs in `\u`
escapes are combined; a lone surrogate, unrepresentable in `Char`, is
modelled as U+FFFD). -/
def parseStrGo : Nat → List Char → List Char → Option (List Char × List Char)
  | 0, _, _ => none
  | _ + 1, _, [] => none
  | fuel + 1, acc, c :: cs =>
    if c = '"' then some (acc.reverse, cs)
    else if c = '\\' then
      match cs with
      | [] => none
      | e :: cs2 =>
        if e = '"' then parseStrGo fuel ('"' :: acc) cs2
        else if e = '\\' then parseStrGo fuel ('\\' :: acc) cs2
        else if e = '/' then parseStrGo fuel ('/' :: acc) cs2
        else if e = 'b' then parseStrGo fuel (Char.ofNat 8 :: acc) cs2
        else if e = 'f' then parseStrGo fuel (Char.ofNat 12 :: acc) cs2
        else if e = 'n' then parseStrGo fuel ('\n' :: acc) cs2
        else if e = 'r' then parseStrGo fuel ('\r' :: acc) cs2
        else if e = 't' then parseStrGo fuel ('\t' :: acc) cs2
        else if e = 'u' then
          match parseHex4 cs2 with
          | none => none
          | some (n, cs3) =>
            if 0xD800 ≤ n ∧ n ≤ 0xDBFF then
              match cs3 with
              | '\\' :: 'u' :: cs4 =>
                match parseHex4 cs4 with
                | some (m, cs5) =>
                  if 0xDC00 ≤ m ∧ m ≤ 0xDFFF then
                    parseStrGo fuel
                      (Char.ofNat (0x10000 + (n - 0xD800) * 0x400 + (m - 0xDC00)) :: acc) cs5
                  else parseStrGo fuel (Char.ofNat 0xFFFD :: acc) cs3
                | none => parseStrGo fuel (Char.ofNat 0xFFFD :: acc) cs3
              | _ => parseStrGo fuel (Char.ofNat 0xFFFD :: acc) cs3
            else if 0xDC00 ≤ n ∧ n ≤ 0xDFFF then parseStrGo fuel (Char.ofNat 0xFFFD :: acc) cs3
            else parseStrGo fuel (Char.ofNat n :: acc) cs3
        else none
    else if c.toNat < 32 then none
    else parseStrGo fuel (c :: acc) cs

/-- `\d+` lexeme. -/
def takeDigits (l : List Char) : List Char × List Char :=
  (l.takeWhile Char.isDigit, l.dropWhile Char.isDigit)

/-- JSON number lexeme per the RFC grammar (`-?(0|[1-9][0-9]*)`
`(.[0-9]+)?([eE][+-]?[0-9]+)?`), returned uninterpreted. -/
def parseNum (l : List Char) : Option (List Char × List Char) := do
  let (sign, l1) :=
    match l with
    | '-' :: rest => (['-'], rest)
    | _ => ([], l)
  let (ip, l2) ←
    match l1 with
    | '0' :: rest => some (['0'], rest)
    | c :: _ =>
      if c.isDigit then
        let (ds, rest) := takeDigits l1
        some (ds, rest)
      else none
    | [] => none
  let (fp, l3) ←
    match l2 with
    | '.' :: rest =>
      let (ds, rest2) := takeDigits rest
      if ds.isEmpty then none else some ('.' :: ds, rest2)
    | _ => some ([], l2)
  let (ep, l4) ←
    match l3 with
    | c :: rest =>
      if c = 'e' ∨ c = 'E' then
        let (es, rest2) :=
          match rest with
          | '+' :: r => (['+'], r)
          | '-' :: r => (['-'], r)
          | _ => ([], rest)
        let (ds, rest3) := takeDigits rest2
        if ds.isEmpty then none else some (c :: (es ++ ds), rest3)
      else some ([], l3)
    | [] => some ([], l3)
  some (sign ++ ip ++ fp ++ ep, l4)

/-- Insert a key into an object with the last-value-wins semantics of
`json.loads` on duplicate keys. -/
def insertKV : List (String × PyJson) → String → PyJson → List (String × PyJson)
  | [], k, v => [(k, v)]
  | (k0, v0) :: rest, k, v =>
    if k0 = k then (k0, v) :: rest else (k0, v0) :: insertKV rest k v

mutual

/-- One JSON value (leading whitespace skipped), returning the rest. -/
def parseValue : Nat → List Char → Option (PyJson × List Char)
  | 0, _ => none
  | fuel + 1, l =>
    match l.dropWhile jsonWs with
    | [] => none
    | c :: cs =>
      if c = '{' then parseMembers fuel [] cs
      else if c = '[' then parseElems fuel [] cs
      else if c = '"' then
        match parseStrGo (cs.length + 1) [] cs with
        | some (content, rest) => some (.str (String.mk content), rest)
        | none => none
      else if c = 't' then
        match litMatch false "rue".data cs with
        | some rest => some (.bool true, rest)
        | none => none
      else if c = 'f' then
        match litMatch false "alse".data cs with
        | some rest => some (.bool false, rest)
        | none => none
      else if c = 'n' then
        match litMatch false "ull".data cs with
        | some rest => some (.null, rest)
        | none => none
      else if c = 'N' then
        match litMatch false "aN".data cs with
        | some rest => some (.num "NaN", rest)
        | none => none
      else if c = 'I' then
        match litMatch false "nfinity".data cs with
        | some rest => some (.num "Infinity", rest)
        | none => none
      else if c = '-' && (match cs with | 'I' :: _ => true | _ => false) then
        match litMatch false "Infinity".data cs with
        | some rest => some (.num "-Infinity", rest)
        | none => none
      else
        match parseNum (c :: cs) with
        | some (lex, rest) => some (.num (String.mk lex), rest)
        | none => none

/-- Object members after `{` (or after a comma), accumulating pairs. -/
def parseMembers : Nat → List (String × PyJson) → List Char → Option (PyJson × List Char)
  | 0, _, _ => none
  | fuel + 1, kvs, l =>
    match l.dropWhile jsonWs with
    | '}' :: rest => if kvs.isEmpty then some (.obj [], rest) else none
    | '"' :: cs =>
      match parseStrGo (cs.length + 1) [] cs with
      | none => none
      | some (key, afterKey) =>
        match afterKey.dropWhile jsonWs with
        | ':' :: afterColon =>
          match parseValue fuel afterColon with
          | none => none
          | some (v, afterVal) =>
            let kvs2 := insertKV kvs (String.mk key) v
            match afterVal.dropWhile jsonWs with
            | ',' :: afterComma => parseMembers fuel kvs2 afterComma
            | '}' :: rest => some (.obj kvs2, rest)
            | _ => none
        | _ => none
    | _ => none

/-- Array elements after `[` (or after a comma), accumulating values. -/
def parseElems : Nat → List PyJson → List Char → Option (PyJson × List Char)
  | 0, _, _ => none
  | fuel + 1, xs, l =>
    match l.dropWhile jsonWs with
    | ']' :: rest => if xs.isEmpty then some (.arr [], rest) else none
    | _ =>
      match parseValue fuel l with
      | none => none
      | some (v, afterVal) =>
        let xs2 := xs ++ [v]
        match afterVal.dropWhile jsonWs with
        | ',' :: afterComma => parseElems fuel xs2 afterComma
        | ']' :: rest => some (.arr xs2, rest)
        | _ => none

end

/-- `json.loads`: parse one value and require only whitespace after it. -/
def jsonLoads (s : String) : Except Unit PyJson :=
  match parseValue (2 * s.data.length + 2) s.data with
  | some (v, rest) => if (rest.dropWhile jsonWs).isEmpty then .ok v else .error ()
  | none => .error ()

/-! ### `_extract_json_ld` and the candidate pool -/

/-- `<script[^>]*type="application/ld\+json"[^>]*>(.*?)</script>`
(DOTALL, case-sensitive). -/
def jsonLdPat : List Pc :=
  [.s (.lit "<script".data), .s (.star nonGt),
   .s (.lit "type=\"application/ld+json\"".data), .s (.star nonGt),
   .s (.lit ">".data), .s (.grpStarL anyDot), .s (.lit "</script>".data)]

/-- The group-1 contents of the JSON-LD script blocks, in document order
(`re.findall` with one group returns the group slices). -/
def jsonLdBlocks (html : String) : List String :=
  (findAll false jsonLdPat html).map (fun m => String.mk (m.2.getD []))

/-- Python `key in dict` / `dict[key]` on an object. -/
def lookupKV (kvs : List (String × PyJson)) (k : String) : Option PyJson :=
  (kvs.find? (fun kv => kv.1 = k)).map (fun kv => kv.2)

/-- `_extract_json_ld`: parse each block; on a mapping, append the values
of `description`, `abstract`, and `author.description` (when `author` is
itself a mapping), in that order; parse failures and other shapes
contribute nothing. -/
def _extract_json_ld (html : String) : List PyJson :=
  (jsonLdBlocks html).foldl
    (fun acc m =>
      match jsonLoads m with
      | .error _ => acc
      | .ok data =>
        match data with
        | .obj kvs =>
          let acc1 :=
            match lookupKV kvs "description" with
            | some v => acc ++ [v]
            | none => acc
          let acc2 :=
            match lookupKV kvs "abstract" with
            | some v => acc1 ++ [v]
            | none => acc1
          match lookupKV kvs "author" with
          | some (.obj akvs) =>
            match lookupKV akvs "description" with
            | some v => acc2 ++ [v]
            | none => acc2
          | _ => acc2
        | _ => acc)
    []

/-- The candidate pool of `extract`/`extract_all`: structural patterns,
then JSON-LD values, then meta tags. -/
def allCandidates (html : String) : List PyJson :=
  (extract_patterns html).map .str ++ _extract_json_ld html ++
    (extract_meta_tags html).map .str

/-- Spec-side description of one JSON-LD block's contribution (for the
refinement comparison of claim C7): parse the block as a JSON value; if
the top-level value is a mapping, emit the values of its `description`
key, its `abstract` key, and the `description` key of its `author` value
when `author` is itself a mapping, in that order, whenever present;
otherwise emit nothing. -/
def jsonLdBlockSpec (block : String) : List PyJson :=
  match jsonLoads block with
  | .error _ => []
  | .ok (.obj kvs) =>
    (match lookupKV kvs "description" with | some v => [v] | none => []) ++
      (match lookupKV kvs "abstract" with | some v => [v] | none => []) ++
      (match lookupKV kvs "author" with
       | some (.obj akvs) =>
         (match lookupKV akvs "description" with | some v => [v] | none => [])
       | _ => [])
  | .ok _ => []

/-! ### Public entry points -/

/-- `AbstractExtractor.extract`. -/
def extract (cfg : Config) (html : String) : Except PyErr (Option String) :=
  let all := allCandidates html
  if all.isEmpty then .ok none
  else
    match _filter_quality_abstracts cfg all with
    | .error e => .error e
    | .ok filtered =>
      if filtered.isEmpty then .ok none
      else
        match _remove_duplicates filtered with
        | [] => .ok none
        | u :: us => .ok (some (pyMaxLen u us))

/-- `AbstractExtractor.extract_all`. -/
def extract_all (cfg : Config) (html : String) : Except PyErr (List String) :=
  let all := allCandidates html
  if all.isEmpty then .ok []
  else
    match _filter_quality_abstracts cfg all with
    | .error e => .error e
    | .ok filtered => .ok (sortDescLen (_remove_duplicates filtered))

/-- The metadata record of `extract_with_metadata`. -/
structure Metadata where
  abstract : String
  length : Nat
  word_count : Nat
  sentence_count : Nat
  has_numbers : Bool
deriving DecidableEq

/-- `AbstractExtractor.extract_with_metadata` (`if not abstract` is also
taken for an empty string). -/
def extract_with_metadata (cfg : Config) (html : String) : Except PyErr (Option Metadata) :=
  match extract cfg html with
  | .error e => .error e
  | .ok none => .ok none
  | .ok (some abstract) =>
    if abstract = "" then .ok none
    else
      .ok (some
        { abstract := abstract
          length := abstract.length
          word_count := wordCount abstract.data
          sentence_count := (sentSplit abstract.data).length
          has_numbers := abstract.data.any Char.isDigit })

/-- Equality on `Except` results is decidable (used to evaluate concrete
runs inside proofs). -/
instance {ε α : Type} [DecidableEq ε] [DecidableEq α] : DecidableEq (Except ε α) := fun x y =>
  match x, y with
  | .ok a, .ok b =>
    if h : a = b then isTrue (by rw [h]) else isFalse (fun e => h (Except.ok.inj e))
  | .error a, .error b =>
    if h : a = b then isTrue (by rw [h]) else isFalse (fun e => h (Except.error.inj e))
  | .ok _, .error _ => isFalse (fun e => Except.noConfusion e)
  | .error _, .ok _ => isFalse (fun e => Except.noConfusion e)

/-! ### Concrete instances used by witnesses and counterexamples -/

/-- A small configuration for concrete runs. -/
def cfgW : Config := ⟨20, 5000, false⟩

/-- The source's default configuration (`min_length=50`, `max_length=5000`,
`verbose=False`). -/
def cfgDefault : Config := ⟨50, 5000, false⟩

/-- The same bounds with `verbose` on. -/
def cfgV : Config := ⟨20, 5000, true⟩

/-- A small document with one structural-pattern abstract that passes the
quality filter under `cfgW`. -/
def docW : String := "<div class=\"abstract\">Aa bb cc dd one. Ee ff gg hh two.</div>"

/-- The cleaned text the pipeline extracts from `docW`. -/
def outW : String := "Aa bb cc dd one. Ee ff gg hh two."

/-- A JSON-LD block whose `description` value is the number 42: feeding it
to `_clean_html` raises `TypeError` in the source. -/
def docBad : String := "<script type=\"application/ld+json\">\x7b\"description\": 42\x7d</script>"

/-- A 60-character text (deduplication witness data). -/
def sA : String := String.mk (List.replicate 60 'a')

/-- A 30-character text, within 50 of `sA` in length. -/
def sB : String := String.mk (List.replicate 30 'b')

/-- A 120-character text, at least 50 from `sA` in length. -/
def sC : String := String.mk (List.replicate 120 'c')

/-- A concrete deduplication input. -/
def lC6 : List String := [sA, sB, sC]

/-! ### Theorems -/

/-- `removeDupGo` only ever appends to the accepted accumulator, and what
it appends is a sublist of its input. -/
theorem removeDupGo_append (l : List String) :
    ∀ (uniq : List String) (seen : List Nat),
      ∃ l2, removeDupGo l uniq seen = uniq ++ l2 ∧ List.Sublist l2 l := by
  induction l with
  | nil =>
    intro uniq seen
    exact ⟨[], by simp [removeDupGo], List.Sublist.refl []⟩
  | cons a rest ih =>
    intro uniq seen
    by_cases h1 : (seen.any fun sl => decide (Nat.dist a.length sl < 50)) = true
    · obtain ⟨l2, he, hs⟩ := ih uniq seen
      exact ⟨l2, by simp [removeDupGo, h1, he], hs.cons a⟩
    · by_cases h2 : a ∈ uniq
      · obtain ⟨l2, he, hs⟩ := ih uniq seen
        exact ⟨l2, by simp [removeDupGo, h1, h2, he], hs.cons a⟩
      · obtain ⟨l2, he, hs⟩ := ih (uniq ++ [a]) (a.length :: seen)
        refine ⟨a :: l2, ?_, hs.cons₂ a⟩
        simp [removeDupGo, h1, h2, he]

/-- `_remove_duplicates` keeps a sublist of its input (in original order). -/
theorem remove_duplicates_sublist (l : List String) :
    List.Sublist (_remove_duplicates l) l := by
  obtain ⟨l2, he, hs⟩ := removeDupGo_append l [] []
  rw [_remove_duplicates, he]
  simpa using hs

/-- Already-accepted texts survive the rest of the loop. -/
theorem removeDupGo_mem_uniq {u : String} (l uniq : List String) (seen : List Nat)
    (hu : u ∈ uniq) : u ∈ removeDupGo l uniq seen := by
  obtain ⟨l2, he, _⟩ := removeDupGo_append l uniq seen
  rw [he]
  exact List.mem_append_left _ hu

/-- The loop preserves pairwise length separation of the accepted texts,
given that `seen` covers their lengths. -/
theorem removeDupGo_pairwise (l : List String) :
    ∀ (uniq : List String) (seen : List Nat),
      uniq.Pairwise (fun x y => 50 ≤ Nat.dist x.length y.length) →
      (∀ u ∈ uniq, u.length ∈ seen) →
      (removeDupGo l uniq seen).Pairwise (fun x y => 50 ≤ Nat.dist x.length y.length) := by
  induction l with
  | nil =>
    intro uniq seen hp _
    simpa [removeDupGo] using hp
  | cons a rest ih =>
    intro uniq seen hp hs
    by_cases h1 : (seen.any fun sl => decide (Nat.dist a.length sl < 50)) = true
    · simpa [removeDupGo, h1] using ih uniq seen hp hs
    · by_cases h2 : a ∈ uniq
      · simpa [removeDupGo, h1, h2] using ih uniq seen hp hs
      · have hgood : ∀ u ∈ uniq, 50 ≤ Nat.dist u.length a.length := by
          intro u hu
          have hnlt : ¬ Nat.dist a.length u.length < 50 := by
            intro hlt
            exact h1 (List.any_eq_true.2 ⟨u.length, hs u hu, decide_eq_true hlt⟩)
          rw [Nat.dist_comm]
          omega
        have hp2 : (uniq ++ [a]).Pairwise (fun x y => 50 ≤ Nat.dist x.length y.length) := by
          refine List.pairwise_append.2 ⟨hp, List.pairwise_singleton _ _, ?_⟩
          intro u hu b hb
          rw [List.mem_singleton] at hb
          subst hb
          exact hgood u hu
        have hs2 : ∀ u ∈ uniq ++ [a], u.length ∈ a.length :: seen := by
          intro u hu
          rcases List.mem_append.1 hu with h | h
          · exact List.mem_cons_of_mem _ (hs u h)
          · rw [List.mem_singleton] at h
            subst h
            exact List.mem_cons_self _ _
        simpa [removeDupGo, h1, h2] using ih (uniq ++ [a]) (a.length :: seen) hp2 hs2

/-- The accepted texts of `_remove_duplicates` are pairwise at least 50
apart in length. -/
theorem remove_duplicates_pairwise (l : List String) :
    (_remove_duplicates l).Pairwise (fun x y => 50 ≤ Nat.dist x.length y.length) := by
  rw [_remove_duplicates]
  exact removeDupGo_pairwise l [] [] (List.Pairwise.nil) (by simp)

/-- Every input text is within 50 of some accepted text (itself, when it
was accepted). -/
theorem removeDupGo_cover (l : List String) :
    ∀ (uniq : List String) (seen : List Nat),
      (∀ n ∈ seen, ∃ u ∈ uniq, u.length = n) →
      ∀ t ∈ l, ∃ u ∈ removeDupGo l uniq seen, Nat.dist u.length t.length < 50 := by
  induction l with
  | nil => simp
  | cons a rest ih =>
    intro uniq seen hseen t ht
    by_cases h1 : (seen.any fun sl => decide (Nat.dist a.length sl < 50)) = true
    · rw [show removeDupGo (a :: rest) uniq seen = removeDupGo rest uniq seen by
        simp [removeDupGo, h1]]
      rcases List.mem_cons.1 ht with rfl | ht2
      · obtain ⟨sl, hsl, hlt⟩ := List.any_eq_true.1 h1
        have hlt2 := of_decide_eq_true hlt
        obtain ⟨u, hu, hul⟩ := hseen sl hsl
        refine ⟨u, removeDupGo_mem_uniq rest uniq seen hu, ?_⟩
        rw [hul, Nat.dist_comm]
        exact hlt2
      · exact ih uniq seen hseen t ht2
    · by_cases h2 : a ∈ uniq
      · rw [show removeDupGo (a :: rest) uniq seen = removeDupGo rest uniq seen by
          simp [removeDupGo, h1, h2]]
        rcases List.mem_cons.1 ht with rfl | ht2
        · exact ⟨t, removeDupGo_mem_uniq rest uniq seen h2, by simp [Nat.dist_self]⟩
        · exact ih uniq seen hseen t ht2
      · rw [show removeDupGo (a :: rest) uniq seen
            = removeDupGo rest (uniq ++ [a]) (a.length :: seen) by
          simp [removeDupGo, h1, h2]]
        have hseen2 : ∀ n ∈ a.length :: seen, ∃ u ∈ uniq ++ [a], u.length = n := by
          intro n hn
          rcases List.mem_cons.1 hn with rfl | hn2
          · exact ⟨a, List.mem_append_right _ (List.mem_singleton_self a), rfl⟩
          · obtain ⟨u, hu, hul⟩ := hseen n hn2
            exact ⟨u, List.mem_append_left _ hu, hul⟩
        rcases List.mem_cons.1 ht with rfl | ht2
        · refine ⟨t, removeDupGo_mem_uniq rest (uniq ++ [t]) (t.length :: seen)
            (List.mem_append_right _ (List.mem_singleton_self t)), ?_⟩
          simp [Nat.dist_self]
        · exact ih (uniq ++ [a]) (a.length :: seen) hseen2 t ht2

/-- `_remove_duplicates` covers its input within the 50 threshold. -/
theorem remove_duplicates_cover (l : List String) :
    ∀ t ∈ l, ∃ u ∈ _remove_duplicates l, Nat.dist u.length t.length < 50 := by
  rw [_remove_duplicates]
  exact removeDupGo_cover l [] [] (by simp)

/-- On a nonempty input, the first text is always accepted first. -/
theorem remove_duplicates_cons (a : String) (rest : List String) :
    ∃ l2, _remove_duplicates (a :: rest) = a :: l2 ∧ List.Sublist l2 rest := by
  rw [_remove_duplicates]
  obtain ⟨l2, he, hs⟩ := removeDupGo_append rest [a] [a.length]
  refine ⟨l2, ?_, hs⟩
  rw [show removeDupGo (a :: rest) [] [] = removeDupGo rest [a] [a.length] by
    simp [removeDupGo]]
  simpa using he

/-- Insertion produces a permutation. -/
theorem insertDesc_perm (x : String) (l : List String) :
    (insertDesc x l).Perm (x :: l) := by
  induction l with
  | nil => simp [insertDesc]
  | cons y ys ih =>
    rw [insertDesc]
    by_cases h : x.length ≤ y.length
    · rw [if_pos h]
      exact (ih.cons y).trans (List.Perm.swap x y ys)
    · rw [if_neg h]

/-- Membership after insertion. -/
theorem insertDesc_mem {z x : String} {l : List String} :
    z ∈ insertDesc x l ↔ z = x ∨ z ∈ l := by
  rw [(insertDesc_perm x l).mem_iff]
  exact List.mem_cons

/-- Insertion preserves the length-descending order. -/
theorem insertDesc_sorted {l : List String}
    (h : l.Sorted (fun a b => b.length ≤ a.length)) (x : String) :
    (insertDesc x l).Sorted (fun a b => b.length ≤ a.length) := by
  induction l with
  | nil => simp [insertDesc]
  | cons y ys ih =>
    rw [List.sorted_cons] at h
    rw [insertDesc]
    by_cases hxy : x.length ≤ y.length
    · rw [if_pos hxy, List.sorted_cons]
      refine ⟨?_, ih h.2⟩
      intro b hb
      rcases insertDesc_mem.1 hb with rfl | hmem
      · exact hxy
      · exact h.1 b hmem
    · rw [if_neg hxy, List.sorted_cons]
      refine ⟨?_, List.sorted_cons.2 ⟨h.1, h.2⟩⟩
      intro b hb
      rcases List.mem_cons.1 hb with rfl | hmem
      · omega
      · have := h.1 b hmem
        omega

/-- The insertion fold is a permutation of accumulator plus input. -/
theorem foldlInsert_perm (l : List String) :
    ∀ acc, (l.foldl (fun a x => insertDesc x a) acc).Perm (acc ++ l) := by
  induction l with
  | nil => simp
  | cons x xs ih =>
    intro acc
    rw [List.foldl_cons]
    refine (ih (insertDesc x acc)).trans ?_
    refine (List.Perm.append_right xs (insertDesc_perm x acc)).trans ?_
    simpa using (@List.perm_middle String x acc xs).symm

/-- `sortDescLen` permutes its input. -/
theorem sortDescLen_perm (l : List String) : (sortDescLen l).Perm l := by
  simpa [sortDescLen] using foldlInsert_perm l []

/-- The insertion fold keeps the accumulator sorted. -/
theorem foldlInsert_sorted (l : List String) :
    ∀ acc, acc.Sorted (fun a b => b.length ≤ a.length) →
      (l.foldl (fun a x => insertDesc x a) acc).Sorted (fun a b => b.length ≤ a.length) := by
  induction l with
  | nil => intro acc h; simpa using h
  | cons x xs ih =>
    intro acc h
    rw [List.foldl_cons]
    exact ih (insertDesc x acc) (insertDesc_sorted h x)

/-- `sortDescLen` sorts by descending length. -/
theorem sortDescLen_sorted (l : List String) :
    (sortDescLen l).Sorted (fun a b => b.length ≤ a.length) := by
  rw [sortDescLen]
  exact foldlInsert_sorted l [] (by simp)

/-- The head of an insertion is the longer of the inserted element and the
old head, ties keeping the old head. -/
theorem insertDesc_shape (x y : String) (ys : List String) :
    ∃ zs, insertDesc x (y :: ys) = (if y.length < x.length then x else y) :: zs := by
  rw [insertDesc]
  by_cases h : x.length ≤ y.length
  · exact ⟨insertDesc x ys, by rw [if_pos h, if_neg (by omega)]⟩
  · exact ⟨y :: ys, by rw [if_neg h, if_pos (by omega)]⟩

/-- The head of the insertion fold is Python's `max(..., key=len)`. -/
theorem foldlInsert_head (rest : List String) :
    ∀ (y : String) (ys : List String),
      (rest.foldl (fun a x => insertDesc x a) (y :: ys)).head? = some (pyMaxLen y rest) := by
  induction rest with
  | nil => intro y ys; simp [pyMaxLen]
  | cons x xs ih =>
    intro y ys
    rw [List.foldl_cons]
    obtain ⟨zs, hz⟩ := insertDesc_shape x y ys
    rw [hz, ih]
    simp [pyMaxLen]

/-- The first element of the sorted output is the earliest longest text. -/
theorem sortDescLen_head (a : String) (rest : List String) :
    (sortDescLen (a :: rest)).head? = some (pyMaxLen a rest) := by
  rw [sortDescLen, List.foldl_cons]
  exact foldlInsert_head rest a []

/-- `max(key=len)` characterised: it is in the list, it has maximal
length, and everything before its (first) occurrence is strictly shorter. -/
theorem pyMaxLen_spec (rest : List String) :
    ∀ a : String,
      pyMaxLen a rest ∈ a :: rest ∧
      (∀ u ∈ a :: rest, u.length ≤ (pyMaxLen a rest).length) ∧
      ∃ pre post, a :: rest = pre ++ pyMaxLen a rest :: post ∧
        ∀ u ∈ pre, u.length < (pyMaxLen a rest).length := by
  induction rest with
  | nil =>
    intro a
    refine ⟨List.mem_singleton_self a, ?_, [], [], by simp [pyMaxLen], by simp⟩
    intro u hu
    rw [List.mem_singleton] at hu
    subst hu
    simp [pyMaxLen]
  | cons x xs ih =>
    intro a
    have hstep : pyMaxLen a (x :: xs) = pyMaxLen (if a.length < x.length then x else a) xs := by
      simp [pyMaxLen]
    by_cases h : a.length < x.length
    · rw [hstep, if_pos h]
      obtain ⟨hmem, hbound, pre, post, hsplit, hpre⟩ := ih x
      have hx : x.length ≤ (pyMaxLen x xs).length := hbound x (List.mem_cons_self x xs)
      refine ⟨List.mem_cons_of_mem a hmem, ?_, a :: pre, post, ?_, ?_⟩
      · intro u hu
        rcases List.mem_cons.1 hu with rfl | hu2
        · omega
        · exact hbound u hu2
      · rw [List.cons_append, ← hsplit]
      · intro u hu
        rcases List.mem_cons.1 hu with rfl | hu2
        · omega
        · exact hpre u hu2
    · rw [hstep, if_neg h]
      obtain ⟨hmem, hbound, pre, post, hsplit, hpre⟩ := ih a
      have hax : a.length ≤ (pyMaxLen a xs).length := hbound a (List.mem_cons_self a xs)
      have hmem2 : pyMaxLen a xs ∈ a :: x :: xs := by
        rcases List.mem_cons.1 hmem with hu | hu2
        · rw [hu]; exact List.mem_cons_self _ _
        · exact List.mem_cons_of_mem _ (List.mem_cons_of_mem _ hu2)
      refine ⟨hmem2, ?_, ?_⟩
      · intro u hu
        rcases List.mem_cons.1 hu with rfl | hu2
        · exact hax
        · rcases List.mem_cons.1 hu2 with rfl | hu3
          · omega
          · exact hbound u (List.mem_cons_of_mem a hu3)
      · cases pre with
        | nil =>
          rw [List.nil_append] at hsplit
          refine ⟨[], x :: xs, ?_, by simp⟩
          rw [List.nil_append]
          have h1 : a = pyMaxLen a xs := (List.cons.injEq _ _ _ _ ▸ hsplit).1
          rw [← h1]
        | cons p ps =>
          rw [List.cons_append] at hsplit
          have h1 : a = p := (List.cons.injEq _ _ _ _ ▸ hsplit).1
          have h2 : xs = ps ++ pyMaxLen a xs :: post := (List.cons.injEq _ _ _ _ ▸ hsplit).2
          have hp : p.length < (pyMaxLen a xs).length := hpre p (List.mem_cons_self p ps)
          refine ⟨a :: x :: ps, post, ?_, ?_⟩
          · rw [List.cons_append, List.cons_append, ← h2]
          · intro u hu
            rcases List.mem_cons.1 hu with rfl | hu2
            · have : u.length = p.length := by rw [h1]
              omega
            · rcases List.mem_cons.1 hu2 with rfl | hu3
              · have : a.length = p.length := by rw [h1]
                omega
              · exact hpre u (List.mem_cons_of_mem p hu3)

section FilterLemmas

attribute [local irreducible] clean_html

/-- Every text kept by the filter loop passes its quality predicate (a
text is appended only after the check succeeds, as its own cleaned
form). -/
theorem filterLoop_mem (q : List Char → Bool) :
    ∀ (l : List PyJson) (f : List String),
      filterQualityLoop q l = .ok f → ∀ t ∈ f, q t.data = true := by
  intro l
  induction l with
  | nil =>
    intro f hf t ht
    simp only [filterQualityLoop] at hf
    injection hf with hf2
    subst hf2
    cases ht
  | cons a rest ih =>
    intro f hf t ht
    cases a with
    | str s =>
      simp only [filterQualityLoop] at hf
      cases hrec : filterQualityLoop q rest with
      | error e => rw [hrec] at hf; cases hf
      | ok tl =>
        rw [hrec] at hf
        dsimp only at hf
        by_cases hq : q (clean_html s).data = true
        · rw [if_pos hq] at hf
          injection hf with hf2
          subst hf2
          rcases List.mem_cons.1 ht with rfl | ht2
          · exact hq
          · exact ih tl hrec t ht2
        · rw [if_neg hq] at hf
          injection hf with hf2
          subst hf2
          exact ih tl hrec t ht
    | null => simp only [filterQualityLoop] at hf; exact Except.noConfusion hf
    | bool b => simp only [filterQualityLoop] at hf; exact Except.noConfusion hf
    | num lit => simp only [filterQualityLoop] at hf; exact Except.noConfusion hf
    | arr xs => simp only [filterQualityLoop] at hf; exact Except.noConfusion hf
    | obj kvs => simp only [filterQualityLoop] at hf; exact Except.noConfusion hf

/-- Every text kept by `_filter_quality_abstracts` passes the four quality
checks (it is appended only after they all succeed, and it is appended as
its own cleaned form). -/
theorem filter_quality_mem (cfg : Config) (l : List PyJson) (f : List String)
    (hf : _filter_quality_abstracts cfg l = .ok f) :
    ∀ t ∈ f, qualityOk cfg t.data = true :=
  filterLoop_mem (qualityOk cfg) l f hf

end FilterLemmas

/-- Dissection of a successful `extract`: the filter succeeded, and the
result is either `none` with no deduplication survivor, or the Python
maximum of the survivors. -/
theorem extract_ok_dissect (cfg : Config) (html : String) (r : Option String)
    (h : extract cfg html = .ok r) :
    ∃ f, _filter_quality_abstracts cfg (allCandidates html) = .ok f ∧
      ((r = none ∧ _remove_duplicates f = []) ∨
       ∃ u us, _remove_duplicates f = u :: us ∧ r = some (pyMaxLen u us)) := by
  rw [extract] at h
  by_cases hall : (allCandidates html).isEmpty = true
  · rw [if_pos hall] at h
    injection h with h2
    subst h2
    have hnil : allCandidates html = [] := by
      cases hcand : allCandidates html with
      | nil => rfl
      | cons x xs => rw [hcand] at hall; cases hall
    exact ⟨[], by rw [hnil]; rfl, Or.inl ⟨rfl, rfl⟩⟩
  · rw [if_neg hall] at h
    cases hfil : _filter_quality_abstracts cfg (allCandidates html) with
    | error e => rw [hfil] at h; cases h
    | ok f =>
      rw [hfil] at h
      dsimp only at h
      refine ⟨f, rfl, ?_⟩
      by_cases hfe : f.isEmpty = true
      · rw [if_pos hfe] at h
        injection h with h2
        subst h2
        have hfnil : f = [] := by
          cases hc : f with
          | nil => rfl
          | cons x xs => rw [hc] at hfe; cases hfe
        subst hfnil
        exact Or.inl ⟨rfl, rfl⟩
      · rw [if_neg hfe] at h
        cases hrd : _remove_duplicates f with
        | nil =>
          rw [hrd] at h
          injection h with h2
          subst h2
          exact Or.inl ⟨rfl, rfl⟩
        | cons u us =>
          rw [hrd] at h
          injection h with h2
          subst h2
          exact Or.inr ⟨u, us, rfl, rfl⟩

/-- Dissection of a successful `extract_all`: the filter succeeded and the
result is the sorted deduplicated survivors. -/
theorem extract_all_ok_dissect (cfg : Config) (html : String) (l : List String)
    (h : extract_all cfg html = .ok l) :
    ∃ f, _filter_quality_abstracts cfg (allCandidates html) = .ok f ∧
      l = sortDescLen (_remove_duplicates f) := by
  rw [extract_all] at h
  by_cases hall : (allCandidates html).isEmpty = true
  · rw [if_pos hall] at h
    injection h with h2
    subst h2
    have hnil : allCandidates html = [] := by
      cases hcand : allCandidates html with
      | nil => rfl
      | cons x xs => rw [hcand] at hall; cases hall
    exact ⟨[], by rw [hnil]; rfl, rfl⟩
  · rw [if_neg hall] at h
    cases hfil : _filter_quality_abstracts cfg (allCandidates html) with
    | error e => rw [hfil] at h; cases h
    | ok f =>
      rw [hfil] at h
      dsimp only at h
      injection h with h2
      subst h2
      exact ⟨f, rfl, rfl⟩

/-- C6: `_remove_duplicates` processes the input in original order and,
for each text, skips it exactly when an already-accepted text has length
within 50; hence the accepted texts are a sublist of the input (original
order, earliest representative of each near-duplicate group), every input
text is within 50 of an accepted one, accepted texts are pairwise at
least 50 apart in length, and the first input text is always the first
accepted one. -/
theorem C6_remove_duplicates_order (l : List String) (a : String) (rest : List String)
    (h : l = a :: rest) :
    List.Sublist (_remove_duplicates l) l ∧
    (∀ t ∈ l, ∃ u ∈ _remove_duplicates l, Nat.dist u.length t.length < 50) ∧
    (_remove_duplicates l).Pairwise (fun x y => 50 ≤ Nat.dist x.length y.length) ∧
    (_remove_duplicates l).head? = some a := by
  subst h
  refine ⟨remove_duplicates_sublist _, remove_duplicates_cover _, remove_duplicates_pairwise _, ?_⟩
  obtain ⟨l2, he, _⟩ := remove_duplicates_cons a rest
  rw [he]
  rfl

/-- Witness for C6 at a concrete input: `[60 chars, 30 chars, 120 chars]`
keeps the first and third texts. -/
theorem C6_witness :
    List.Sublist (_remove_duplicates lC6) lC6 ∧
    (∀ t ∈ lC6, ∃ u ∈ _remove_duplicates lC6, Nat.dist u.length t.length < 50) ∧
    (_remove_duplicates lC6).Pairwise (fun x y => 50 ≤ Nat.dist x.length y.length) ∧
    (_remove_duplicates lC6).head? = some sA :=
  C6_remove_duplicates_order lC6 sA [sB, sC] rfl

/-- C2: a successful `extract` returns `None` exactly when no candidate
survives filtering and deduplication, and otherwise the surviving
candidate of maximal length, ties resolved to the earliest survivor
(everything before the returned text is strictly shorter). -/
theorem C2_best_of_selection (cfg : Config) (html : String) (r : Option String)
    (h : extract cfg html = .ok r) :
    ∃ f, _filter_quality_abstracts cfg (allCandidates html) = .ok f ∧
      (r = none ↔ _remove_duplicates f = []) ∧
      ∀ t, r = some t →
        t ∈ _remove_duplicates f ∧
        (∀ u ∈ _remove_duplicates f, u.length ≤ t.length) ∧
        ∃ pre post, _remove_duplicates f = pre ++ t :: post ∧
          ∀ u ∈ pre, u.length < t.length := by
  obtain ⟨f, hfil, hcase⟩ := extract_ok_dissect cfg html r h
  refine ⟨f, hfil, ?_, ?_⟩
  · rcases hcase with ⟨hr, hrd⟩ | ⟨u, us, hrd, hr⟩
    · subst hr
      simp [hrd]
    · subst hr
      rw [hrd]
      simp
  · intro t hrt
    rcases hcase with ⟨hr, hrd⟩ | ⟨u, us, hrd, hr⟩
    · rw [hr] at hrt
      cases hrt
    · rw [hr] at hrt
      injection hrt with h3
      subst h3
      rw [hrd]
      exact pyMaxLen_spec us u

set_option maxRecDepth 200000 in
/-- Witness for C2 at a concrete document where one candidate survives. -/
theorem C2_witness :
    ∃ f, _filter_quality_abstracts cfgW (allCandidates docW) = .ok f ∧
      (some outW = none ↔ _remove_duplicates f = []) ∧
      ∀ t, some outW = some t →
        t ∈ _remove_duplicates f ∧
        (∀ u ∈ _remove_duplicates f, u.length ≤ t.length) ∧
        ∃ pre post, _remove_duplicates f = pre ++ t :: post ∧
          ∀ u ∈ pre, u.length < t.length :=
  C2_best_of_selection cfgW docW (some outW) (by rfl)

/-- C5: a successful `extract_all` returns the deduplicated surviving
texts sorted by descending character length, and the empty list exactly
when no candidate survives. -/
theorem C5_all_mode (cfg : Config) (html : String) (l : List String)
    (h : extract_all cfg html = .ok l) :
    ∃ f, _filter_quality_abstracts cfg (allCandidates html) = .ok f ∧
      l.Sorted (fun a b => b.length ≤ a.length) ∧
      l.Perm (_remove_duplicates f) ∧
      (l = [] ↔ _remove_duplicates f = []) := by
  obtain ⟨f, hfil, hl⟩ := extract_all_ok_dissect cfg html l h
  subst hl
  refine ⟨f, hfil, sortDescLen_sorted _, sortDescLen_perm _, ?_⟩
  constructor
  · intro he
    have hp := sortDescLen_perm (_remove_duplicates f)
    rw [he] at hp
    exact hp.nil_eq.symm
  · intro he
    rw [he]
    rfl

set_option maxRecDepth 200000 in
/-- Witness for C5 at a concrete document. -/
theorem C5_witness :
    ∃ f, _filter_quality_abstracts cfgW (allCandidates docW) = .ok f ∧
      ([outW] : List String).Sorted (fun a b => b.length ≤ a.length) ∧
      ([outW] : List String).Perm (_remove_duplicates f) ∧
      (([outW] : List String) = [] ↔ _remove_duplicates f = []) :=
  C5_all_mode cfgW docW [outW] (by rfl)

/-- C10: the two public modes agree: a successful `extract` returns
`None` exactly when a successful `extract_all` returns the empty list,
and otherwise its text is the first element of `extract_all`. -/
theorem C10_modes_agree (cfg : Config) (html : String) (r : Option String) (l : List String)
    (h1 : extract cfg html = .ok r) (h2 : extract_all cfg html = .ok l) :
    (r = none ↔ l = []) ∧ ∀ t, r = some t → l.head? = some t := by
  obtain ⟨f, hfil, hcase⟩ := extract_ok_dissect cfg html r h1
  obtain ⟨f2, hfil2, hl⟩ := extract_all_ok_dissect cfg html l h2
  have hff : f2 = f := by
    rw [hfil] at hfil2
    exact (Except.ok.inj hfil2).symm
  subst hff
  subst hl
  rcases hcase with ⟨hr, hrd⟩ | ⟨u, us, hrd, hr⟩
  · subst hr
    rw [hrd]
    exact ⟨iff_of_true rfl rfl, fun t ht => by cases ht⟩
  · subst hr
    refine ⟨?_, ?_⟩
    · rw [hrd]
      constructor
      · intro hc
        cases hc
      · intro hc
        have hh := sortDescLen_head u us
        rw [hc] at hh
        cases hh
    · intro t ht
      obtain rfl : pyMaxLen u us = t := Option.some.inj ht
      rw [hrd]
      exact sortDescLen_head u us

set_option maxRecDepth 200000 in
/-- Witness for C10 at a concrete document. -/
theorem C10_witness :
    (some outW = none ↔ ([outW] : List String) = []) ∧
    (∀ t, some outW = some t → ([outW] : List String).head? = some t) :=
  C10_modes_agree cfgW docW (some outW) [outW] (by rfl) (by rfl)

/-- C1: every text surfaced by a successful `extract_all` passes all four
quality checks, any two surfaced texts differ in length by at least 50
(hence are unequal), and the text of a successful `extract` passes the
four checks as well. -/
theorem C1_surfaced_quality (cfg : Config) (html : String) (l : List String)
    (h : extract_all cfg html = .ok l) :
    (∀ t ∈ l, qualityOk cfg t.data = true) ∧
    l.Pairwise (fun a b => 50 ≤ Nat.dist a.length b.length ∧ a ≠ b) ∧
    (∀ t, extract cfg html = .ok (some t) → qualityOk cfg t.data = true) := by
  obtain ⟨f, hfil, hl⟩ := extract_all_ok_dissect cfg html l h
  subst hl
  have hmem : ∀ t ∈ sortDescLen (_remove_duplicates f), t ∈ f := by
    intro t ht
    have h1 : t ∈ _remove_duplicates f := (sortDescLen_perm (_remove_duplicates f)).mem_iff.1 ht
    exact (remove_duplicates_sublist f).mem h1
  refine ⟨?_, ?_, ?_⟩
  · intro t ht
    exact filter_quality_mem cfg _ f hfil t (hmem t ht)
  · have hpw2 : (_remove_duplicates f).Pairwise
        (fun a b => 50 ≤ Nat.dist a.length b.length ∧ a ≠ b) := by
      refine (remove_duplicates_pairwise f).imp ?_
      intro a b hab
      refine ⟨hab, ?_⟩
      intro he
      subst he
      rw [Nat.dist_self] at hab
      omega
    exact hpw2.perm (sortDescLen_perm (_remove_duplicates f)).symm
      (fun hab => ⟨by rw [Nat.dist_comm]; exact hab.1, hab.2.symm⟩)
  · intro t hext
    obtain ⟨f2, hfil2, hcase⟩ := extract_ok_dissect cfg html (some t) hext
    have hff : f2 = f := by
      rw [hfil] at hfil2
      exact (Except.ok.inj hfil2).symm
    subst hff
    rcases hcase with ⟨hr, _⟩ | ⟨u, us, hrd, hr⟩
    · cases hr
    · obtain rfl : t = pyMaxLen u us := Option.some.inj hr
      refine filter_quality_mem cfg _ _ hfil _ ((remove_duplicates_sublist _).mem ?_)
      rw [hrd]
      exact (pyMaxLen_spec us u).1

set_option maxRecDepth 200000 in
/-- Witness for C1 at a concrete document. -/
theorem C1_witness :
    (∀ t ∈ ([outW] : List String), qualityOk cfgW t.data = true) ∧
    ([outW] : List String).Pairwise (fun a b => 50 ≤ Nat.dist a.length b.length ∧ a ≠ b) ∧
    (∀ t, extract cfgW docW = .ok (some t) → qualityOk cfgW t.data = true) :=
  C1_surfaced_quality cfgW docW [outW] (by rfl)


/-- One fold step of `_extract_json_ld` appends exactly the block's
spec-side contribution. -/
theorem jsonLd_step (acc : List PyJson) (m : String) :
    (match jsonLoads m with
      | .error _ => acc
      | .ok data =>
        match data with
        | .obj kvs =>
          let acc1 :=
            match lookupKV kvs "description" with
            | some v => acc ++ [v]
            | none => acc
          let acc2 :=
            match lookupKV kvs "abstract" with
            | some v => acc1 ++ [v]
            | none => acc1
          match lookupKV kvs "author" with
          | some (.obj akvs) =>
            match lookupKV akvs "description" with
            | some v => acc2 ++ [v]
            | none => acc2
          | _ => acc2
        | _ => acc) = acc ++ jsonLdBlockSpec m := by
  rw [jsonLdBlockSpec]
  cases hjl : jsonLoads m with
  | error e => simp [*]
  | ok data =>
    cases data with
    | obj kvs =>
      dsimp only
      cases hdesc : lookupKV kvs "description" with
      | none =>
        cases habs : lookupKV kvs "abstract" with
        | none =>
          cases hauth : lookupKV kvs "author" with
          | none => simp [*]
          | some v =>
            cases v with
            | obj akvs =>
              cases had : lookupKV akvs "description" with
              | none => simp [*]
              | some w => simp [*]
            | null => simp [*]
            | bool b => simp [*]
            | num lit => simp [*]
            | str s => simp [*]
            | arr xs => simp [*]
        | some vab =>
          cases hauth : lookupKV kvs "author" with
          | none => simp [*]
          | some v =>
            cases v with
            | obj akvs =>
              cases had : lookupKV akvs "description" with
              | none => simp [*]
              | some w => simp [*]
            | null => simp [*]
            | bool b => simp [*]
            | num lit => simp [*]
            | str s => simp [*]
            | arr xs => simp [*]
      | some vd =>
        cases habs : lookupKV kvs "abstract" with
        | none =>
          cases hauth : lookupKV kvs "author" with
          | none => simp [*]
          | some v =>
            cases v with
            | obj akvs =>
              cases had : lookupKV akvs "description" with
              | none => simp [*]
              | some w => simp [*]
            | null => simp [*]
            | bool b => simp [*]
            | num lit => simp [*]
            | str s => simp [*]
            | arr xs => simp [*]
        | some vab =>
          cases hauth : lookupKV kvs "author" with
          | none => simp [*]
          | some v =>
            cases v with
            | obj akvs =>
              cases had : lookupKV akvs "description" with
              | none => simp [*]
              | some w => simp [*]
            | null => simp [*]
            | bool b => simp [*]
            | num lit => simp [*]
            | str s => simp [*]
            | arr xs => simp [*]
    | null => simp [*]
    | bool b => simp [*]
    | num lit => simp [*]
    | str s => simp [*]
    | arr xs => simp [*]

/-- Appending folds are flat maps. -/
theorem foldl_append_flatMap {α β : Type} (g : α → List β) :
    ∀ (bs : List α) (acc : List β) (step : List β → α → List β),
      (∀ acc2 m, step acc2 m = acc2 ++ g m) →
      bs.foldl step acc = acc ++ bs.flatMap g := by
  intro bs
  induction bs with
  | nil => intro acc step hstep; simp
  | cons m bs ih =>
    intro acc step hstep
    rw [List.foldl_cons, hstep, ih _ _ hstep]
    simp

/-- C7: `_extract_json_ld` considers the `application/ld+json` script
blocks in document order; each block contributes, independently of the
others, exactly its spec-side candidates (nothing when it is not valid
JSON or not a mapping; otherwise `description`, `abstract`,
`author.description`, in that order, whenever present). -/
theorem C7_json_ld_per_block (html : String) :
    _extract_json_ld html = (jsonLdBlocks html).flatMap jsonLdBlockSpec := by
  rw [_extract_json_ld]
  rw [foldl_append_flatMap jsonLdBlockSpec (jsonLdBlocks html) [] _ (fun acc2 m => jsonLd_step acc2 m)]
  simp

/-- C8: the extraction result depends only on the HTML text and the two
length bounds: configurations equal up to `verbose` produce equal results
for all three entry points (the model is a pure function, so equal inputs
trivially give equal results across invocations). -/
theorem C8_result_depends_only_on_bounds (c c2 : Config) (html : String)
    (hmin : c.min_length = c2.min_length) (hmax : c.max_length = c2.max_length) :
    extract c html = extract c2 html ∧
    extract_all c html = extract_all c2 html ∧
    extract_with_metadata c html = extract_with_metadata c2 html := by
  obtain ⟨mL, ML, v⟩ := c
  obtain ⟨mL2, ML2, v2⟩ := c2
  dsimp only at hmin hmax
  subst hmin
  subst hmax
  have hq : qualityOk ⟨mL, ML, v⟩ = qualityOk ⟨mL, ML, v2⟩ := rfl
  have hfil : _filter_quality_abstracts ⟨mL, ML, v⟩ = _filter_quality_abstracts ⟨mL, ML, v2⟩ := by
    funext l
    rw [_filter_quality_abstracts, _filter_quality_abstracts, hq]
  have hext : extract ⟨mL, ML, v⟩ html = extract ⟨mL, ML, v2⟩ html := by
    rw [extract, extract, hfil]
  refine ⟨hext, ?_, ?_⟩
  · rw [extract_all, extract_all, hfil]
  · rw [extract_with_metadata, extract_with_metadata, hext]

set_option maxRecDepth 200000 in
/-- Witness for C8: the same bounds with different `verbose` flags. -/
theorem C8_witness :
    extract cfgW docW = extract cfgV docW ∧
    extract_all cfgW docW = extract_all cfgV docW ∧
    extract_with_metadata cfgW docW = extract_with_metadata cfgV docW :=
  C8_result_depends_only_on_bounds cfgW cfgV docW rfl rfl

/-- C9: a successful `extract_with_metadata` is absent exactly when
`extract` is absent, and otherwise wraps the text of `extract` with its
derived fields (character length, whitespace word count, `[.!?]+`-split
segment count, digit presence), adding no selection logic. -/
theorem C9_metadata_wraps_best_of (cfg : Config) (html : String) (r : Option Metadata)
    (h : extract_with_metadata cfg html = .ok r) :
    (r = none ↔ extract cfg html = .ok none) ∧
    ∀ m, r = some m →
      extract cfg html = .ok (some m.abstract) ∧
      m.length = m.abstract.length ∧
      m.word_count = wordCount m.abstract.data ∧
      m.sentence_count = (sentSplit m.abstract.data).length ∧
      m.has_numbers = m.abstract.data.any Char.isDigit := by
  rw [extract_with_metadata] at h
  cases he : extract cfg html with
  | error e => rw [he] at h; cases h
  | ok a =>
    rw [he] at h
    cases a with
    | none =>
      dsimp only at h
      obtain rfl : (none : Option Metadata) = r := Except.ok.inj h
      exact ⟨iff_of_true rfl rfl, fun m hm => Option.noConfusion hm⟩
    | some abstract =>
      dsimp only at h
      by_cases hemp : abstract = ""
      · exfalso
        subst hemp
        obtain ⟨f2, hfil2, hcase⟩ := extract_ok_dissect cfg html (some "") he
        rcases hcase with ⟨hr, _⟩ | ⟨u, us, hrd, hr⟩
        · cases hr
        · have heq : ("" : String) = pyMaxLen u us := Option.some.inj hr
          have hmemM : pyMaxLen u us ∈ _remove_duplicates f2 := by
            rw [hrd]
            exact (pyMaxLen_spec us u).1
          have hq0 := filter_quality_mem cfg _ f2 hfil2 _
            ((remove_duplicates_sublist f2).mem hmemM)
          rw [← heq, qualityOk] at hq0
          simp only [Bool.and_eq_true] at hq0
          obtain ⟨⟨⟨_, hB⟩, _⟩, _⟩ := hq0
          exact absurd hB (by decide)
      · rw [if_neg hemp] at h
        obtain rfl := Except.ok.inj h
        refine ⟨?_, ?_⟩
        · constructor
          · intro hc
            exact Option.noConfusion hc
          · intro hc
            exact Option.noConfusion (Except.ok.inj hc)
        · intro m hm
          obtain rfl := Option.some.inj hm
          exact ⟨rfl, rfl, rfl, rfl, rfl⟩

set_option maxRecDepth 200000 in
/-- Witness for C9 at a concrete document. -/
theorem C9_witness :
    (some (⟨outW, 33, 10, 3, false⟩ : Metadata) = none ↔ extract cfgW docW = .ok none) ∧
    ∀ m, some (⟨outW, 33, 10, 3, false⟩ : Metadata) = some m →
      extract cfgW docW = .ok (some m.abstract) ∧
      m.length = m.abstract.length ∧
      m.word_count = wordCount m.abstract.data ∧
      m.sentence_count = (sentSplit m.abstract.data).length ∧
      m.has_numbers = m.abstract.data.any Char.isDigit :=
  C9_metadata_wraps_best_of cfgW docW (some ⟨outW, 33, 10, 3, false⟩) (by rfl)

set_option maxRecDepth 200000 in
/-- C4 is violated by the code: on a document whose JSON-LD `description`
is the number 42, the candidate pool holds a non-string, and
`_filter_quality_abstracts` raises `TypeError` inside `_clean_html`
(`re.sub` applied to an `int`), aborting all three entry points instead
of skipping the segment. -/
theorem C4_typeerror_on_nonstring_jsonld :
    extract cfgDefault docBad = .error .typeError ∧
    extract_all cfgDefault docBad = .error .typeError ∧
    extract_with_metadata cfgDefault docBad = .error .typeError :=
  ⟨by rfl, by rfl, by rfl⟩

/-- A character that is neither an ASCII upper nor lower letter matches
only itself, even case-insensitively. -/
theorem ciEq_eq_of_symbol (c0 : Char) (h1 : c0.isUpper = false) (h2 : c0.isLower = false)
    (ci : Bool) (c : Char) (h : ciEq ci c0 c = true) : c = c0 := by
  cases ci with
  | false =>
    rw [ciEq] at h
    simp only [if_neg Bool.false_ne_true] at h
    exact (of_decide_eq_true h).symm
  | true =>
    rw [ciEq] at h
    simp only [if_pos rfl, h1, h2, Bool.false_and, Bool.and_false, Bool.or_false] at h
    exact (of_decide_eq_true h).symm

/-- Contrapositive form for `<`. -/
theorem ciEq_lt_false (ci : Bool) (c : Char) (h : c ≠ '<') : ciEq ci '<' c = false := by
  cases hq : ciEq ci '<' c with
  | false => rfl
  | true => exact absurd (ciEq_eq_of_symbol '<' rfl rfl ci c hq) h

/-- Contrapositive form for `&`. -/
theorem ciEq_amp_false (ci : Bool) (c : Char) (h : c ≠ '&') : ciEq ci '&' c = false := by
  cases hq : ciEq ci '&' c with
  | false => rfl
  | true => exact absurd (ciEq_eq_of_symbol '&' rfl rfl ci c hq) h

/-- A character matching `S` case-insensitively is not whitespace. -/
theorem ciEq_S_nonspace (ci : Bool) (c : Char) (h : ciEq ci 'S' c = true) : pySpace c = false := by
  cases hs : pySpace c with
  | false => rfl
  | true =>
    exfalso
    rw [pySpace] at hs
    simp only [Bool.or_eq_true, decide_eq_true_eq] at hs
    rcases hs with ((((h1 | h1) | h1) | h1) | h1) | h1 <;> subst h1 <;> cases ci <;>
      exact absurd h (by decide)

/-- The piece fold never revives an empty state set. -/
theorem foldlPc_nil (ci : Bool) (ps : List Pc) :
    List.foldl (fun sts p => sts.flatMap (matchPc ci p)) ([] : List MSt) ps = [] := by
  induction ps with
  | nil => rfl
  | cons p ps ih => simpa using ih

/-- The simple-piece fold never revives an empty state set. -/
theorem foldlSP_nil (ci : Bool) (ps : List SP) :
    List.foldl (fun sts p => sts.flatMap (matchSP ci p)) ([] : List MSt) ps = [] := by
  induction ps with
  | nil => rfl
  | cons p ps ih => simpa using ih

/-- A literal whose first character does not match fails at once. -/
theorem litMatch_none_of_head (ci : Bool) (p : List Char) (c0 c : Char) (cs : List Char)
    (hp : p.head? = some c0) (h : ciEq ci c0 c = false) : litMatch ci p (c :: cs) = none := by
  cases p with
  | nil => cases hp
  | cons a as =>
    injection hp with hp2
    subst hp2
    simp [litMatch, h]

/-- A pattern opening with a literal whose first character does not match
has no match at this position. -/
theorem matchAt_none_firstLit (ci : Bool) (p0 : List Char) (ps : List Pc) (c0 c : Char)
    (cs : List Char) (hp : p0.head? = some c0) (h : ciEq ci c0 c = false) :
    matchAt ci (Pc.s (SP.lit p0) :: ps) (c :: cs) = none := by
  rw [matchAt, matchPat, List.foldl_cons]
  have h1 : matchSP ci (SP.lit p0) (c :: cs, none) = [] := by
    rw [matchSP, litMatch_none_of_head ci p0 c0 c cs hp h]
  have h2 : List.flatMap [((c :: cs, none) : MSt)] (matchPc ci (Pc.s (SP.lit p0))) = [] := by
    simp [matchPc, h1]
  rw [h2, foldlPc_nil]
  rfl

/-- The expanded back-reference alternation has no match at a position not
starting with `<`. -/
theorem matchAt_none_bloat (ci : Bool) (c : Char) (cs : List Char) (h : c ≠ '<') :
    matchAt ci bloatPat (c :: cs) = none := by
  have hci := ciEq_lt_false ci c h
  have hbr : ∀ tag : String, litMatch ci ("<" ++ tag).data (c :: cs) = none := by
    intro tag
    refine litMatch_none_of_head ci _ '<' c cs ?_ hci
    cases tag with
    | mk data => rfl
  rw [matchAt, show bloatPat = [Pc.alts [bloatBranch "noscript", bloatBranch "iframe",
    bloatBranch "embed"]] from rfl, matchPat, List.foldl_cons]
  have h2 : List.flatMap [((c :: cs, none) : MSt)] (matchPc ci (Pc.alts [bloatBranch "noscript",
      bloatBranch "iframe", bloatBranch "embed"])) = [] := by
    simp only [List.flatMap_cons, List.flatMap_nil, List.append_nil, matchPc]
    have hb : ∀ tag : String,
        matchSPs ci (bloatBranch tag) ((c :: cs, none) : MSt) = [] := by
      intro tag
      rw [bloatBranch, matchSPs, List.foldl_cons]
      have h3 : matchSP ci (SP.lit ("<" ++ tag).data) ((c :: cs, none) : MSt) = [] := by
        rw [matchSP, hbr tag]
      have h4 : List.flatMap [((c :: cs, none) : MSt)]
          (matchSP ci (SP.lit ("<" ++ tag).data)) = [] := by
        simpa using h3
      rw [h4, foldlSP_nil]
    simp [hb]
  rw [h2, foldlPc_nil]
  rfl

/-- `subDel` leaves its input unchanged when the pattern cannot match at
any position. -/
theorem subDelGo_id (ci : Bool) (pat : List Pc) (bad : Char)
    (hpat : ∀ c cs, c ≠ bad → matchAt ci pat (c :: cs) = none) :
    ∀ (l : List Char) (fuel : Nat), bad ∉ l → subDelGo ci pat fuel l = l := by
  intro l
  induction l with
  | nil => intro fuel _; cases fuel <;> rfl
  | cons c cs ih =>
    intro fuel hbad
    cases fuel with
    | zero => rfl
    | succ fuel =>
      have hc : c ≠ bad := fun he => hbad (he ▸ List.mem_cons_self c cs)
      rw [subDelGo, hpat c cs hc]
      rw [ih fuel (fun hm => hbad (List.mem_cons_of_mem c hm))]

/-- `subDel` identity wrapper. -/
theorem subDel_id (ci : Bool) (pat : List Pc) (bad : Char)
    (hpat : ∀ c cs, c ≠ bad → matchAt ci pat (c :: cs) = none)
    (l : List Char) (hbad : bad ∉ l) : subDel ci pat l = l :=
  subDelGo_id ci pat bad hpat l (l.length + 1) hbad

/-- `str.replace` leaves text without the pattern's first character
unchanged. -/
theorem pyReplaceGo_id (pat rep : List Char) (bad : Char) (hp : pat.head? = some bad) :
    ∀ (l : List Char) (fuel : Nat), bad ∉ l → pyReplaceGo pat rep fuel l = l := by
  intro l
  induction l with
  | nil => intro fuel _; cases fuel <;> rfl
  | cons c cs ih =>
    intro fuel hbad
    cases fuel with
    | zero => rfl
    | succ fuel =>
      have hc : c ≠ bad := fun he => hbad (he ▸ List.mem_cons_self c cs)
      have hpre : pat.isPrefixOf (c :: cs) = false := by
        cases pat with
        | nil => cases hp
        | cons a as =>
          injection hp with hp2
          subst hp2
          simp [List.isPrefixOf, Ne.symm hc]
      rw [pyReplaceGo, hpre]
      simp only [Bool.false_eq_true, if_false]
      rw [ih fuel (fun hm => hbad (List.mem_cons_of_mem c hm))]

/-- Text without `<` is untouched by script-block removal. -/
theorem subDel_script_id (l : List Char) (h : '<' ∉ l) : subDel true scriptPat l = l :=
  subDel_id true scriptPat '<'
    (fun c cs hc => matchAt_none_firstLit true _ _ '<' c cs rfl (ciEq_lt_false true c hc)) l h

/-- Text without `<` is untouched by style-block removal. -/
theorem subDel_style_id (l : List Char) (h : '<' ∉ l) : subDel true stylePat l = l :=
  subDel_id true stylePat '<'
    (fun c cs hc => matchAt_none_firstLit true _ _ '<' c cs rfl (ciEq_lt_false true c hc)) l h

/-- Text without `<` is untouched by noscript/iframe/embed removal. -/
theorem subDel_bloat_id (l : List Char) (h : '<' ∉ l) : subDel true bloatPat l = l :=
  subDel_id true bloatPat '<' (fun c cs hc => matchAt_none_bloat true c cs hc) l h

/-- Text without `<` is untouched by comment removal. -/
theorem subDel_comment_id (l : List Char) (h : '<' ∉ l) : subDel false commentPat l = l :=
  subDel_id false commentPat '<'
    (fun c cs hc => matchAt_none_firstLit false _ _ '<' c cs rfl (ciEq_lt_false false c hc)) l h

/-- Text without `<` is untouched by tag stripping. -/
theorem subDel_tag_id (l : List Char) (h : '<' ∉ l) : subDel false tagPat l = l :=
  subDel_id false tagPat '<'
    (fun c cs hc => matchAt_none_firstLit false _ _ '<' c cs rfl (ciEq_lt_false false c hc)) l h

/-- Text without `&` is untouched by entity-reference removal. -/
theorem subDel_entityRef_id (l : List Char) (h : '&' ∉ l) : subDel false entityRefPat l = l :=
  subDel_id false entityRefPat '&'
    (fun c cs hc => matchAt_none_firstLit false _ _ '&' c cs rfl (ciEq_amp_false false c hc)) l h

/-- Text without `&` is untouched by the whole entity table. -/
theorem entityFold_id (l : List Char) (h : '&' ∉ l) :
    htmlEntities.foldl (fun t pr => pyReplace pr.1.data pr.2.data t) l = l := by
  have key : ∀ es : List (String × String),
      (es.all (fun pr => pr.1.data.head? = some '&')) = true →
      es.foldl (fun t pr => pyReplace pr.1.data pr.2.data t) l = l := by
    intro es
    induction es with
    | nil => intro _; rfl
    | cons pr es ih =>
      intro hall
      rw [List.all_cons, Bool.and_eq_true] at hall
      rw [List.foldl_cons, pyReplace,
        pyReplaceGo_id pr.1.data pr.2.data '&' (of_decide_eq_true hall.1) l (l.length + 1) h]
      exact ih hall.2
  exact key htmlEntities (by decide)

/-- Characters of the whitespace collapse are the space or non-whitespace
characters. -/
theorem collapseWsGo_mem : ∀ (b : Bool) (l : List Char) (c : Char),
    c ∈ collapseWsGo b l → c = ' ' ∨ pySpace c = false := by
  intro b l
  induction l generalizing b with
  | nil => intro c hc; cases hc
  | cons d ds ih =>
    intro c hc
    by_cases hd : pySpace d = true
    · rw [collapseWsGo, if_pos hd] at hc
      cases b with
      | true => exact ih true c hc
      | false =>
        rcases List.mem_cons.1 hc with rfl | hc2
        · exact Or.inl rfl
        · exact ih true c hc2
    · rw [collapseWsGo, if_neg hd] at hc
      rcases List.mem_cons.1 hc with rfl | hc2
      · exact Or.inr (Bool.eq_false_iff.2 hd)
      · exact ih false c hc2

/-- The collapse output never has two adjacent spaces, and in a run it
never begins with a space. -/
theorem collapseWsGo_chain : ∀ l : List Char,
    List.Chain' (fun a b => ¬(a = ' ' ∧ b = ' ')) (collapseWsGo false l) ∧
    List.Chain' (fun a b => ¬(a = ' ' ∧ b = ' ')) (collapseWsGo true l) ∧
    (collapseWsGo true l).head? ≠ some ' ' := by
  intro l
  induction l with
  | nil => exact ⟨List.chain'_nil, List.chain'_nil, by simp [collapseWsGo]⟩
  | cons d ds ih =>
    obtain ⟨ihf, iht, ihh⟩ := ih
    by_cases hd : pySpace d = true
    · refine ⟨?_, ?_, ?_⟩
      · rw [collapseWsGo, if_pos hd, if_neg (show ¬(false = true) by decide)]
        rw [List.chain'_cons']
        refine ⟨?_, iht⟩
        intro b hb hcon
        rw [Option.mem_def] at hb
        rw [hcon.2] at hb
        exact ihh hb
      · rw [collapseWsGo, if_pos hd, if_pos (show true = true from rfl)]
        exact iht
      · rw [collapseWsGo, if_pos hd, if_pos (show true = true from rfl)]
        exact ihh
    · have hdne : d ≠ ' ' := fun he => hd (by rw [he]; rfl)
      have hcons : List.Chain' (fun a b => ¬(a = ' ' ∧ b = ' '))
          (d :: collapseWsGo false ds) := by
        rw [List.chain'_cons']
        exact ⟨fun b2 _ hcon => hdne hcon.1, ihf⟩
      refine ⟨?_, ?_, ?_⟩
      · rw [collapseWsGo, if_neg hd]
        exact hcons
      · rw [collapseWsGo, if_neg hd]
        exact hcons
      · rw [collapseWsGo, if_neg hd]
        intro hcon
        exact hdne (Option.some.inj hcon)

/-- Whitespace-normal text (only isolated single spaces) is a fixed point
of the collapse. -/
theorem collapseWsGo_id : ∀ l : List Char,
    (∀ c ∈ l, pySpace c = true → c = ' ') →
    List.Chain' (fun a b => ¬(a = ' ' ∧ b = ' ')) l →
    ((l.head? ≠ some ' ' → collapseWsGo true l = l) ∧ collapseWsGo false l = l) := by
  intro l
  induction l with
  | nil => exact fun _ _ => ⟨fun _ => rfl, rfl⟩
  | cons c cs ih =>
    intro hA hB
    have hA2 : ∀ c2 ∈ cs, pySpace c2 = true → c2 = ' ' :=
      fun c2 hc2 => hA c2 (List.mem_cons_of_mem c hc2)
    have hB2 : List.Chain' (fun a b => ¬(a = ' ' ∧ b = ' ')) cs := hB.tail
    by_cases hsp : pySpace c = true
    · have hc : c = ' ' := hA c (List.mem_cons_self c cs) hsp
      subst hc
      constructor
      · intro hh
        exact absurd rfl hh
      · rw [collapseWsGo, if_pos hsp, if_neg (show ¬(false = true) by decide)]
        have hhead : cs.head? ≠ some ' ' := by
          intro hcon
          cases cs with
          | nil => cases hcon
          | cons d ds =>
            injection hcon with hcon2
            have := (List.chain'_cons'.1 hB).1 d rfl
            exact this ⟨rfl, hcon2⟩
        rw [(ih hA2 hB2).1 hhead]
    · have hcne : c ≠ ' ' := fun he => hsp (by rw [he]; rfl)
      have hrest := (ih hA2 hB2).2
      constructor
      · intro _
        rw [collapseWsGo, if_neg hsp, hrest]
      · rw [collapseWsGo, if_neg hsp, hrest]

/-- `collapseWs` identity on whitespace-normal text. -/
theorem collapseWs_id (l : List Char)
    (hA : ∀ c ∈ l, pySpace c = true → c = ' ')
    (hB : List.Chain' (fun a b => ¬(a = ' ' ∧ b = ' ')) l) : collapseWs l = l :=
  (collapseWsGo_id l hA hB).2

/-- `dropWhile` is the identity when the head fails the test. -/
theorem dropWhile_eq_self_of_head (p : Char → Bool) (l : List Char)
    (h : ∀ c, l.head? = some c → p c = false) : l.dropWhile p = l := by
  cases l with
  | nil => rfl
  | cons c cs =>
    rw [List.dropWhile_cons, if_neg]
    rw [h c rfl]
    exact fun hc => Bool.false_ne_true hc

/-- The head surviving `dropWhile` fails the test. -/
theorem head_dropWhile_false (p : Char → Bool) : ∀ (l : List Char) (c : Char),
    (l.dropWhile p).head? = some c → p c = false := by
  intro l
  induction l with
  | nil => intro c h; cases h
  | cons a as ih =>
    intro c h
    rw [List.dropWhile_cons] at h
    by_cases hs : p a = true
    · rw [if_pos hs] at h
      exact ih c h
    · rw [if_neg hs] at h
      injection h with h2
      subst h2
      exact Bool.eq_false_iff.2 hs

/-- `str.strip` output is an infix of the input. -/
theorem stripList_inf (l : List Char) : List.IsInfix (stripList l) l := by
  have h1 : List.IsSuffix (l.dropWhile pySpace) l := List.dropWhile_suffix pySpace
  have h2 : List.IsSuffix ((l.dropWhile pySpace).reverse.dropWhile pySpace)
      (l.dropWhile pySpace).reverse := List.dropWhile_suffix pySpace
  have h3 : List.IsPrefix (stripList l) (l.dropWhile pySpace) := by
    rw [stripList]
    have := List.reverse_prefix.2 h2
    simpa using this
  exact h3.isInfix.trans h1.isInfix

/-- `str.strip` keeps only input characters. -/
theorem stripList_mem (l : List Char) (c : Char) (h : c ∈ stripList l) : c ∈ l :=
  (stripList_inf l).sublist.mem h

/-- The head of `str.strip` output is not whitespace. -/
theorem stripList_head (l : List Char) (c : Char) (h : (stripList l).head? = some c) :
    pySpace c = false := by
  have h3 : List.IsPrefix (stripList l) (l.dropWhile pySpace) := by
    rw [stripList]
    have := List.reverse_prefix.2 (List.dropWhile_suffix (l := (l.dropWhile pySpace).reverse) pySpace)
    simpa using this
  obtain ⟨t, ht⟩ := h3
  cases hsl : stripList l with
  | nil => rw [hsl] at h; cases h
  | cons x xs =>
    rw [hsl] at h ht
    injection h with h2
    refine head_dropWhile_false pySpace l c ?_
    rw [← ht, ← h2]
    rfl

/-- The last character of `str.strip` output is not whitespace. -/
theorem stripList_last (l : List Char) (c : Char) (h : (stripList l).getLast? = some c) :
    pySpace c = false := by
  rw [← List.head?_reverse] at h
  have hrev : (stripList l).reverse = (l.dropWhile pySpace).reverse.dropWhile pySpace := by
    rw [stripList, List.reverse_reverse]
  rw [hrev] at h
  exact head_dropWhile_false pySpace _ c h

/-- `str.strip` identity when both ends are not whitespace. -/
theorem stripList_id (l : List Char)
    (hh : ∀ c, l.head? = some c → pySpace c = false)
    (hl : ∀ c, l.getLast? = some c → pySpace c = false) : stripList l = l := by
  rw [stripList]
  rw [dropWhile_eq_self_of_head pySpace l hh]
  rw [dropWhile_eq_self_of_head pySpace l.reverse
    (fun c hc => hl c (by rwa [List.head?_reverse] at hc))]
  exact List.reverse_reverse l

/-- A nonempty prefix starts with the same character. -/
theorem prefix_head_eq (u v : List Char) (c : Char) (h : List.IsPrefix v u)
    (hv : v.head? = some c) : u.head? = some c := by
  obtain ⟨t, ht⟩ := h
  cases v with
  | nil => cases hv
  | cons x xs =>
    injection hv with h2
    rw [← ht, ← h2]
    rfl

/-- A successful literal match extends along appended input. -/
theorem litMatch_mono (ci : Bool) : ∀ (p t r e : List Char),
    litMatch ci p t = some r → litMatch ci p (t ++ e) = some (r ++ e) := by
  intro p
  induction p with
  | nil =>
    intro t r e h
    injection h with h2
    subst h2
    rfl
  | cons a as ih =>
    intro t r e h
    cases t with
    | nil => simp [litMatch] at h
    | cons x xs =>
      rw [litMatch] at h
      rw [List.cons_append, litMatch]
      by_cases hc : ciEq ci a x = true
      · rw [if_pos hc] at h ⊢
        exact ih xs r e h
      · rw [if_neg hc] at h
        cases h

/-- A case-insensitive prefix of a prefix is one of the whole. -/
theorem ciIsPrefix_mono (p t u : List Char) (h : ciIsPrefix p t = true)
    (hp : List.IsPrefix t u) : ciIsPrefix p u = true := by
  obtain ⟨e, he⟩ := hp
  rw [ciIsPrefix] at h ⊢
  cases hm : litMatch true p t with
  | none => rw [hm] at h; cases h
  | some r => rw [← he, litMatch_mono true p t r e hm]

/-- A leading whitespace character does not change the `Show More` match. -/
theorem showMoreAt_space (c : Char) (cs : List Char) (h : pySpace c = true) :
    showMoreAt (c :: cs) = showMoreAt cs := by
  rw [showMoreAt, showMoreAt, List.dropWhile_cons, if_pos h]

/-- A `Show More` match deletes everything, or everything except a final
newline that the input must contain. -/
theorem showMoreAt_some_cases (l tail : List Char) (h : showMoreAt l = some tail) :
    tail = [] ∨ ('\n' ∈ l ∧ tail = ['\n']) := by
  simp only [showMoreAt] at h
  by_cases h1 : ciIsPrefix "Show More".data (l.dropWhile pySpace) = true
  · rw [if_pos h1] at h
    by_cases h2 : (!((l.dropWhile pySpace).drop 9).contains '\n') = true
    · rw [if_pos h2] at h
      injection h with h3
      exact Or.inl h3.symm
    · rw [if_neg h2] at h
      by_cases h3 : (decide (((l.dropWhile pySpace).drop 9).getLast? = some '\n') &&
          !((l.dropWhile pySpace).drop 9).dropLast.contains '\n') = true
      · rw [if_pos h3] at h
        injection h with h4
        refine Or.inr ⟨?_, h4.symm⟩
        have h5 := of_decide_eq_true (Bool.and_eq_true _ _ ▸ h3 :
          decide (((l.dropWhile pySpace).drop 9).getLast? = some '\n') = true ∧
          (!((l.dropWhile pySpace).drop 9).dropLast.contains '\n') = true).1
        have h6 : '\n' ∈ (l.dropWhile pySpace).drop 9 := by
          rw [← List.head?_reverse] at h5
          exact List.mem_reverse.1 (List.mem_of_mem_head? h5)
        have h7 : List.IsSuffix ((l.dropWhile pySpace).drop 9) l :=
          (List.drop_suffix 9 _).trans (List.dropWhile_suffix pySpace)
        exact h7.sublist.mem h6
      · rw [if_neg h3] at h
        cases h
  · rw [if_neg h1] at h
    cases h

/-- At a position that case-insensitively starts with `Show More`, the
match succeeds on newline-free text. -/
theorem showMoreAt_of_pref (c : Char) (cs : List Char)
    (h : ciIsPrefix "Show More".data (c :: cs) = true) (hnl : '\n' ∉ (c :: cs)) :
    showMoreAt (c :: cs) = some [] := by
  have hS : ciEq true 'S' c = true := by
    cases hv : ciEq true 'S' c with
    | true => rfl
    | false =>
      exfalso
      rw [ciIsPrefix, litMatch_none_of_head true "Show More".data 'S' c cs rfl hv] at h
      cases h
  have hcsp : pySpace c = false := ciEq_S_nonspace true c hS
  have hdw : (c :: cs).dropWhile pySpace = c :: cs := by
    rw [List.dropWhile_cons, if_neg]
    rw [hcsp]
    exact fun hc => Bool.false_ne_true hc
  have hcon : ((c :: cs).drop 9).contains '\n' = false := by
    cases hcc : ((c :: cs).drop 9).contains '\n' with
    | false => rfl
    | true =>
      exfalso
      obtain ⟨a, ha, hab⟩ := List.contains_iff_exists_mem_beq.1 hcc
      have hanl : a = '\n' := (eq_of_beq hab).symm
      exact hnl (hanl ▸ (List.drop_suffix 9 (c :: cs)).sublist.mem ha)
  rw [showMoreAt, hdw]
  dsimp only
  rw [if_pos h, hcon]
  rfl

/-- Helper: extend a list prefix with a common head. -/
theorem prefix_cons_cons (a : Char) (u v : List Char) (h : List.IsPrefix u v) :
    List.IsPrefix (a :: u) (a :: v) := by
  obtain ⟨t, ht⟩ := h
  exact ⟨t, by rw [List.cons_append, ht]⟩

/-- On newline-free input, the `Show More` scan returns a prefix. -/
theorem showMoreGo_pref (l : List Char) (hnl : '\n' ∉ l) :
    List.IsPrefix (showMoreGo l) l := by
  induction l with
  | nil => exact List.prefix_refl []
  | cons c cs ih =>
    cases hsm : showMoreAt (c :: cs) with
    | some tail =>
      rcases showMoreAt_some_cases _ _ hsm with rfl | ⟨hmem, rfl⟩
      · simp only [showMoreGo, hsm]
        exact List.nil_prefix
      · exact absurd hmem hnl
    | none =>
      simp only [showMoreGo, hsm]
      exact prefix_cons_cons c _ _ (ih (fun hm => hnl (List.mem_cons_of_mem c hm)))

/-- On newline-free input, the output of the `Show More` scan contains no
case-insensitive occurrence of `Show More`. -/
theorem showMoreGo_noOcc (l : List Char) (hnl : '\n' ∉ l) :
    ∀ t, List.IsInfix t (showMoreGo l) → ciIsPrefix "Show More".data t = false := by
  induction l with
  | nil =>
    intro t ht
    have h0 : t = [] := List.eq_nil_of_infix_nil ht
    subst h0
    rfl
  | cons c cs ih =>
    intro t ht
    cases hsm : showMoreAt (c :: cs) with
    | some tail =>
      rcases showMoreAt_some_cases _ _ hsm with rfl | ⟨hmem, rfl⟩
      · simp only [showMoreGo, hsm] at ht
        have h0 : t = [] := List.eq_nil_of_infix_nil ht
        subst h0
        rfl
      · exact absurd hmem hnl
    | none =>
      simp only [showMoreGo, hsm] at ht
      have hnl2 : '\n' ∉ cs := fun hm => hnl (List.mem_cons_of_mem c hm)
      rcases List.infix_cons_iff.1 ht with hpre | hinf
      · cases hq : ciIsPrefix "Show More".data t with
        | false => rfl
        | true =>
          exfalso
          have hp3 : List.IsPrefix t (c :: cs) :=
            hpre.trans (prefix_cons_cons c _ _ (showMoreGo_pref cs hnl2))
          have h4 : ciIsPrefix "Show More".data (c :: cs) = true :=
            ciIsPrefix_mono _ t _ hq hp3
          have h5 := showMoreAt_of_pref c cs h4 hnl
          rw [hsm] at h5
          cases h5
      · exact ih hnl2 t hinf

/-- The `Show More` scan is the identity when no position matches. -/
theorem showMoreGo_id (l : List Char)
    (hno : ∀ t, List.IsInfix t l → ciIsPrefix "Show More".data t = false) :
    showMoreGo l = l := by
  induction l with
  | nil => rfl
  | cons c cs ih =>
    have hnone : showMoreAt (c :: cs) = none := by
      have hc := hno ((c :: cs).dropWhile pySpace)
        ((List.dropWhile_suffix pySpace).isInfix)
      rw [showMoreAt, hc]
      rfl
    simp only [showMoreGo, hnone]
    rw [ih (fun t ht2 => hno t (List.infix_cons ht2))]

/-- On newline-free input whose last character is not a space, the
`Show More` scan keeps that property: the leftmost match cannot be
preceded by a space, since `\s*` would have absorbed it. -/
theorem showMoreGo_last : ∀ (u : List Char), '\n' ∉ u → u.getLast? ≠ some ' ' →
    (showMoreGo u).getLast? ≠ some ' ' := by
  intro u
  induction u with
  | nil => exact fun _ h => h
  | cons c cs ih =>
    intro hnl hlast
    cases hsm : showMoreAt (c :: cs) with
    | some tail =>
      rcases showMoreAt_some_cases _ _ hsm with rfl | ⟨hmem, rfl⟩
      · simp only [showMoreGo, hsm]
        intro hcon
        cases hcon
      · exact absurd hmem hnl
    | none =>
      simp only [showMoreGo, hsm]
      have hnl2 : '\n' ∉ cs := fun hm => hnl (List.mem_cons_of_mem c hm)
      cases hgo : showMoreGo cs with
      | nil =>
        cases cs with
        | nil => exact hlast
        | cons d ds =>
          have hsm2 : ∃ t2, showMoreAt (d :: ds) = some t2 := by
            cases hs : showMoreAt (d :: ds) with
            | some t2 => exact ⟨t2, rfl⟩
            | none =>
              exfalso
              simp only [showMoreGo, hs] at hgo
              exact (List.cons_ne_nil d _) hgo
          obtain ⟨t2, hs2⟩ := hsm2
          intro hcon
          have hc : c = ' ' := Option.some.inj hcon
          have hstep := showMoreAt_space c (d :: ds) (by rw [hc]; decide)
          rw [hstep, hs2] at hsm
          cases hsm
      | cons y ys =>
        rw [List.getLast?_cons_cons, ← hgo]
        apply ih hnl2
        cases cs with
        | nil =>
          exfalso
          exact (List.cons_ne_nil y ys) hgo.symm
        | cons d ds =>
          intro hx
          exact hlast (by rw [List.getLast?_cons_cons]; exact hx)

/-- A leading whitespace character does not change the ellipsis match. -/
theorem ellipsisAt_space (c : Char) (cs : List Char) (h : pySpace c = true) :
    ellipsisAt (c :: cs) = ellipsisAt cs := by
  rw [ellipsisAt, ellipsisAt, List.dropWhile_cons, if_pos h]

/-- An ellipsis match deletes everything, or everything except a final
newline that the input must contain. -/
theorem ellipsisAt_some_cases (l tail : List Char) (h : ellipsisAt l = some tail) :
    tail = [] ∨ ('\n' ∈ l ∧ tail = ['\n']) := by
  simp only [ellipsisAt] at h
  by_cases h1 : l.dropWhile pySpace = ['.', '.', '.']
  · rw [if_pos h1] at h
    injection h with h2
    exact Or.inl h2.symm
  · rw [if_neg h1] at h
    by_cases h2 : l.dropWhile pySpace = ['.', '.', '.', '\n']
    · rw [if_pos h2] at h
      injection h with h3
      refine Or.inr ⟨?_, h3.symm⟩
      have hm : '\n' ∈ l.dropWhile pySpace := by rw [h2]; simp
      exact (List.dropWhile_suffix pySpace).sublist.mem hm
    · rw [if_neg h2] at h
      cases h

/-- On newline-free input, the ellipsis scan returns a prefix. -/
theorem ellipsisGo_pref (l : List Char) (hnl : '\n' ∉ l) :
    List.IsPrefix (ellipsisGo l) l := by
  induction l with
  | nil => exact List.prefix_refl []
  | cons c cs ih =>
    cases hsm : ellipsisAt (c :: cs) with
    | some tail =>
      rcases ellipsisAt_some_cases _ _ hsm with rfl | ⟨hmem, rfl⟩
      · simp only [ellipsisGo, hsm]
        exact List.nil_prefix
      · exact absurd hmem hnl
    | none =>
      simp only [ellipsisGo, hsm]
      exact prefix_cons_cons c _ _ (ih (fun hm => hnl (List.mem_cons_of_mem c hm)))

/-- The ellipsis scan is the identity on newline-free input in which no
whitespace-run suffix is followed by a terminal `...`. -/
theorem ellipsisGo_id : ∀ (l : List Char), '\n' ∉ l →
    (∀ w, List.IsSuffix w l → w.dropWhile pySpace ≠ ['.', '.', '.']) →
    ellipsisGo l = l := by
  intro l
  induction l with
  | nil => intro _ _; rfl
  | cons c cs ih =>
    intro hnl H
    have hnone : ellipsisAt (c :: cs) = none := by
      rw [ellipsisAt, if_neg (H (c :: cs) (List.suffix_refl _)), if_neg]
      intro heq
      have hm : '\n' ∈ (c :: cs).dropWhile pySpace := by rw [heq]; simp
      exact hnl ((List.dropWhile_suffix pySpace).sublist.mem hm)
    simp only [ellipsisGo, hnone]
    rw [ih (fun hm => hnl (List.mem_cons_of_mem c hm))
      (fun w hw => H w (hw.trans (List.suffix_cons c cs)))]

/-- On newline-free input whose last character is not a space, the
ellipsis scan keeps that property. -/
theorem ellipsisGo_last : ∀ (u : List Char), '\n' ∉ u → u.getLast? ≠ some ' ' →
    (ellipsisGo u).getLast? ≠ some ' ' := by
  intro u
  induction u with
  | nil => exact fun _ h => h
  | cons c cs ih =>
    intro hnl hlast
    cases hsm : ellipsisAt (c :: cs) with
    | some tail =>
      rcases ellipsisAt_some_cases _ _ hsm with rfl | ⟨hmem, rfl⟩
      · simp only [ellipsisGo, hsm]
        intro hcon
        cases hcon
      · exact absurd hmem hnl
    | none =>
      simp only [ellipsisGo, hsm]
      have hnl2 : '\n' ∉ cs := fun hm => hnl (List.mem_cons_of_mem c hm)
      cases hgo : ellipsisGo cs with
      | nil =>
        cases cs with
        | nil => exact hlast
        | cons d ds =>
          have hsm2 : ∃ t2, ellipsisAt (d :: ds) = some t2 := by
            cases hs : ellipsisAt (d :: ds) with
            | some t2 => exact ⟨t2, rfl⟩
            | none =>
              exfalso
              simp only [ellipsisGo, hs] at hgo
              exact (List.cons_ne_nil d _) hgo
          obtain ⟨t2, hs2⟩ := hsm2
          intro hcon
          have hc : c = ' ' := Option.some.inj hcon
          have hstep := ellipsisAt_space c (d :: ds) (by rw [hc]; decide)
          rw [hstep, hs2] at hsm
          cases hsm
      | cons y ys =>
        rw [List.getLast?_cons_cons, ← hgo]
        apply ih hnl2
        cases cs with
        | nil =>
          exfalso
          exact (List.cons_ne_nil y ys) hgo.symm
        | cons d ds =>
          intro hx
          exact hlast (by rw [List.getLast?_cons_cons]; exact hx)

/-- The tail of the cleaning pipeline: whitespace collapse and strip,
then the `Show More` cut, then the ellipsis cut. -/
def wsTail (X : List Char) : List Char :=
  ellipsisGo (showMoreGo (stripList (collapseWs X)))

/-- Output invariants of the pipeline tail: whitespace characters are
exactly isolated single spaces, the ends are not spaces, and no
case-insensitive `Show More` occurrence remains. -/
theorem wsTail_props (X : List Char) :
    (∀ c ∈ wsTail X, c = ' ' ∨ pySpace c = false) ∧
    List.Chain' (fun a b => ¬(a = ' ' ∧ b = ' ')) (wsTail X) ∧
    (wsTail X).head? ≠ some ' ' ∧
    (wsTail X).getLast? ≠ some ' ' ∧
    (∀ w, List.IsInfix w (wsTail X) → ciIsPrefix "Show More".data w = false) := by
  have hu_mem : ∀ c ∈ stripList (collapseWs X), c = ' ' ∨ pySpace c = false :=
    fun c hc => collapseWsGo_mem false X c (stripList_mem _ c hc)
  have hu_chain : List.Chain' (fun a b => ¬(a = ' ' ∧ b = ' '))
      (stripList (collapseWs X)) :=
    List.Chain'.infix (collapseWsGo_chain X).1 (stripList_inf (collapseWs X))
  have hu_head : (stripList (collapseWs X)).head? ≠ some ' ' := fun hcon =>
    absurd (stripList_head (collapseWs X) ' ' hcon) (by decide)
  have hu_last : (stripList (collapseWs X)).getLast? ≠ some ' ' := fun hcon =>
    absurd (stripList_last (collapseWs X) ' ' hcon) (by decide)
  have hu_nl : '\n' ∉ stripList (collapseWs X) := fun hm => by
    rcases hu_mem _ hm with h | h
    · exact absurd h (by decide)
    · exact absurd h (by decide)
  have hv_pre := showMoreGo_pref _ hu_nl
  have hv_mem : ∀ c ∈ showMoreGo (stripList (collapseWs X)), c = ' ' ∨ pySpace c = false :=
    fun c hc => hu_mem c (hv_pre.sublist.mem hc)
  have hv_chain := hu_chain.prefix hv_pre
  have hv_head : (showMoreGo (stripList (collapseWs X))).head? ≠ some ' ' :=
    fun hcon => hu_head (prefix_head_eq _ _ ' ' hv_pre hcon)
  have hv_last := showMoreGo_last _ hu_nl hu_last
  have hv_noOcc := showMoreGo_noOcc _ hu_nl
  have hv_nl : '\n' ∉ showMoreGo (stripList (collapseWs X)) :=
    fun hm => hu_nl (hv_pre.sublist.mem hm)
  have ht_pre := ellipsisGo_pref _ hv_nl
  exact ⟨fun c hc => hv_mem c (ht_pre.sublist.mem hc),
    hv_chain.prefix ht_pre,
    fun hcon => hv_head (prefix_head_eq _ _ ' ' ht_pre hcon),
    ellipsisGo_last _ hv_nl hv_last,
    fun w hw => hv_noOcc w (hw.trans ht_pre.isInfix)⟩

/-- The same invariants hold of every `cleanList` output, whose last
three stages are exactly the pipeline tail. -/
theorem cleanList_props (l : List Char) :
    (∀ c ∈ cleanList l, c = ' ' ∨ pySpace c = false) ∧
    List.Chain' (fun a b => ¬(a = ' ' ∧ b = ' ')) (cleanList l) ∧
    (cleanList l).head? ≠ some ' ' ∧
    (cleanList l).getLast? ≠ some ' ' ∧
    (∀ w, List.IsInfix w (cleanList l) → ciIsPrefix "Show More".data w = false) :=
  wsTail_props _

/-- A string satisfying the pipeline-tail invariants, containing neither
`<` nor `&`, and not ending in `...`, is a fixed point of `cleanList`. -/
theorem cleanList_fixed (t : List Char)
    (hmem : ∀ c ∈ t, c = ' ' ∨ pySpace c = false)
    (hchain : List.Chain' (fun a b => ¬(a = ' ' ∧ b = ' ')) t)
    (hhead : t.head? ≠ some ' ') (hlast : t.getLast? ≠ some ' ')
    (hnoOcc : ∀ w, List.IsInfix w t → ciIsPrefix "Show More".data w = false)
    (h1 : '<' ∉ t) (h2 : '&' ∉ t)
    (h3 : ¬ List.IsSuffix ['.', '.', '.'] t) :
    cleanList t = t := by
  have hnl : '\n' ∉ t := fun hm => by
    rcases hmem _ hm with h | h
    · exact absurd h (by decide)
    · exact absurd h (by decide)
  have hheadp : ∀ c, t.head? = some c → pySpace c = false := by
    intro c hc
    rcases hmem c (List.mem_of_mem_head? hc) with rfl | h
    · exact absurd hc hhead
    · exact h
  have hlastp : ∀ c, t.getLast? = some c → pySpace c = false := by
    intro c hc
    have hcm : c ∈ t := by
      rw [← List.head?_reverse] at hc
      exact List.mem_reverse.1 (List.mem_of_mem_head? hc)
    rcases hmem c hcm with rfl | h
    · exact absurd hc hlast
    · exact h
  have e1 : subDel true scriptPat t = t := subDel_script_id t h1
  have e2 : subDel true stylePat t = t := subDel_style_id t h1
  have e3 : subDel true bloatPat t = t := subDel_bloat_id t h1
  have e4 : subDel false commentPat t = t := subDel_comment_id t h1
  have e5 : subDel false tagPat t = t := subDel_tag_id t h1
  have e6 : htmlEntities.foldl (fun t2 pr => pyReplace pr.1.data pr.2.data t2) t = t :=
    entityFold_id t h2
  have e7 : subDel false entityRefPat t = t := subDel_entityRef_id t h2
  have e8a : collapseWs t = t := collapseWs_id t (fun c hc hsp => by
    rcases hmem c hc with rfl | h
    · rfl
    · rw [h] at hsp; cases hsp) hchain
  have e8b : stripList t = t := stripList_id t hheadp hlastp
  have e9 : showMoreGo t = t := showMoreGo_id t hnoOcc
  have e10 : ellipsisGo t = t := ellipsisGo_id t hnl
    (fun w hw hdw => h3 (((hdw ▸ (List.dropWhile_suffix (l := w) pySpace)) :
      List.IsSuffix ['.', '.', '.'] w).trans hw))
  simp only [cleanList]
  rw [e1, e2, e3, e4, e5, e6, e7, e8a, e8b, e9, e10]

/-- `clean_html` is `cleanList` on the underlying character list. -/
theorem clean_html_data (s : String) : (clean_html s).data = cleanList s.data := by
  rw [clean_html]

set_option maxRecDepth 200000 in
/-- C3 counterexample: `_clean_html` is not idempotent.  Because the
entity table replaces `&amp;` before `&lt;`/`&gt;`, the double-encoded
input decodes to the literal markup `<b>`, which a second pass strips
to the empty string. -/
theorem C3_counterexample :
    clean_html (clean_html "&amp;lt;b&amp;gt;") ≠ clean_html "&amp;lt;b&amp;gt;" := by
  decide

/-- `clean_html` unfolded once. -/
theorem clean_html_eq (s : String) : clean_html s = String.mk (cleanList s.data) := by
  rw [clean_html]

section CleanIrred

attribute [local irreducible] cleanList clean_html

/-- C3 (amended): normalization is idempotent on every input whose
normalized form contains no `<`, contains no `&`, and does not end in a
literal `...`: such outputs are fixed points of `_clean_html`.  The
remaining stages (whitespace collapse and strip, `Show More` cut,
ellipsis cut) are always identities on `_clean_html` output. -/
theorem C3_amended_idempotent (s : String)
    (h1 : '<' ∉ (clean_html s).data) (h2 : '&' ∉ (clean_html s).data)
    (h3 : ¬ List.IsSuffix ['.', '.', '.'] (clean_html s).data) :
    clean_html (clean_html s) = clean_html s := by
  rw [clean_html_data] at h1 h2 h3
  obtain ⟨hmem, hchain, hhead, hlast, hnoOcc⟩ := cleanList_props s.data
  have key : cleanList (cleanList s.data) = cleanList s.data :=
    cleanList_fixed _ hmem hchain hhead hlast hnoOcc h1 h2 h3
  rw [clean_html_eq, clean_html_data, key, clean_html_eq]

end CleanIrred

set_option maxRecDepth 200000 in
/-- Witness for C3 (amended) at a concrete input satisfying all three
side conditions. -/
theorem C3_amended_witness :
    ('<' ∉ (clean_html "Ab cd.").data ∧ '&' ∉ (clean_html "Ab cd.").data ∧
      ¬ List.IsSuffix ['.', '.', '.'] (clean_html "Ab cd.").data) ∧
    clean_html (clean_html "Ab cd.") = clean_html "Ab cd." :=
  ⟨⟨by decide, by decide, by decide⟩,
    C3_amended_idempotent "Ab cd." (by decide) (by decide) (by decide)⟩
